import Mathlib

/-!
Verification development for the llms-full generator site indexer.

The core of the crawler (URL normalization, domain validation, the crawl
frontier, content cleaning, corpus generation) is embedded shallowly.
Text is modeled as lists of characters (`Str`).  External collaborators
(the url-parse library, the WHATWG URL resolver used for relative hrefs,
HTTP transport, the HTML and Markdown converters, the filesystem) are
modeled abstractly: the WHATWG resolver is a parameter returning
`Option` (`none` models a thrown parse error), the web is a function
from URL to `Except` of an error message or a fetched page, and files
are given as (relative path, contents) pairs.
-/

set_option maxHeartbeats 1000000

abbrev Str := List Char

/-- Coerces a Lean string literal to the character-list representation. -/
def str (s : String) : Str := s.data

/-! ## String primitives shared by the components -/

/-- Whitespace recognized by the trim operations (models JS `String.trim`). -/
def isWS (c : Char) : Bool :=
  c = ' ' || c = '\t' || c = '\n' || c = '\r' || c = '\x0b' || c = '\x0c'

/-- Removes leading whitespace. -/
def trimLeftWS (s : Str) : Str := s.dropWhile isWS

/-- Removes trailing whitespace. -/
def trimRightWS (s : Str) : Str := (s.reverse.dropWhile isWS).reverse

/-- Models JS `String.prototype.trim`. -/
def trimStr (s : Str) : Str := trimRightWS (trimLeftWS s)

/-- Models JS `String.prototype.split` on a single-character separator. -/
def splitCh (c : Char) : Str → List Str
  | [] => [[]]
  | a :: s =>
    let r := splitCh c s
    if a = c then [] :: r
    else (a :: r.headD []) :: r.tail

/-- Models JS `Array.prototype.join` with a string separator. -/
def joinWith (sep : Str) : List Str → Str
  | [] => []
  | [l] => l
  | l :: l2 :: ls => l ++ sep ++ joinWith sep (l2 :: ls)

/-- Boolean test that `p` occurs at the start of `s` (JS `startsWith`). -/
def startsWithL : Str → Str → Bool
  | [], _ => true
  | _, [] => false
  | p :: ps, c :: cs => p = c && startsWithL ps cs

/-- Boolean test that `p` occurs at the end of `s` (JS `endsWith`). -/
def endsWithL (p s : Str) : Bool := startsWithL p.reverse s.reverse

/-- Boolean test that `p` occurs somewhere inside `s` (JS `includes`). -/
def containsSub (p s : Str) : Bool :=
  startsWithL p s ||
    match s with
    | [] => false
    | _ :: cs => containsSub p cs

/-- Models JS `url.split("#")[0]`: everything before the first `#`. -/
def stripFragment (s : Str) : Str := s.takeWhile (fun c => c ≠ '#')

/-- First-occurrence deduplication, with an accumulator of already seen
elements; models the JS idiom `[...new Set(xs)]`. -/
def dedupAux (seen : List Str) : List Str → List Str
  | [] => []
  | x :: xs => if x ∈ seen then dedupAux seen xs else x :: dedupAux (x :: seen) xs

/-- Models `[...new Set(links)]`: keeps the first occurrence of each element. -/
def dedupFirst (l : List Str) : List Str := dedupAux [] l

/-! ## URL model

The `url-parse` collaborator is modeled for the URL shapes the core feeds
it: absolute `http://` and `https://` URLs get their host and path split
out; other strings parse with an empty host and themselves as the path,
mirroring the relative-URL behavior of the library.  The hash is cut
first, then the query, as the library does. -/

structure ParsedUrl where
  protocol : Str
  slashes : Bool
  host : Str
  pathname : Str
  query : Str
  hash : Str
deriving DecidableEq, Repr

/-- Models `new URLParse(s)` for the shapes used by the indexer. -/
def urlParse (s : Str) : ParsedUrl :=
  let noHash := s.takeWhile (fun c => c ≠ '#')
  let hashPart := s.dropWhile (fun c => c ≠ '#')
  let noQuery := noHash.takeWhile (fun c => c ≠ '?')
  let queryPart := noHash.dropWhile (fun c => c ≠ '?')
  if startsWithL (str "http://") noQuery then
    let rest := noQuery.drop 7
    { protocol := str "http:"
      slashes := true
      host := rest.takeWhile (fun c => c ≠ '/')
      pathname := rest.dropWhile (fun c => c ≠ '/')
      query := queryPart
      hash := hashPart }
  else if startsWithL (str "https://") noQuery then
    let rest := noQuery.drop 8
    { protocol := str "https:"
      slashes := true
      host := rest.takeWhile (fun c => c ≠ '/')
      pathname := rest.dropWhile (fun c => c ≠ '/')
      query := queryPart
      hash := hashPart }
  else
    { protocol := []
      slashes := false
      host := []
      pathname := noQuery
      query := queryPart
      hash := hashPart }

/-- Models `parsedUrl.toString()` of the url-parse collaborator. -/
def toStringU (p : ParsedUrl) : Str :=
  p.protocol ++ (if p.slashes then str "//" else []) ++ p.host ++ p.pathname ++ p.query ++ p.hash

/-- The crawl context captured by the `SiteIndexer` constructor. -/
structure Ctx where
  baseUrl : Str
  baseDomain : Str
  basePath : Str
deriving DecidableEq, Repr

/-- Models the `SiteIndexer` constructor (the non-`skipUrlInit` path). -/
def mkCtx (startUrl : Str) : Ctx :=
  let parsedUrl := urlParse startUrl
  let basePath0 := parsedUrl.pathname
  { baseUrl := parsedUrl.protocol ++ str "//" ++ parsedUrl.host
    baseDomain := parsedUrl.host
    basePath := if endsWithL (str "/") basePath0 then basePath0 else basePath0 ++ str "/" }

/-- The WHATWG `new URL(url, base).toString()` collaborator, abstract;
`none` models a thrown parse error. -/
abbrev Resolver := Str → Str → Option Str

/-- Models the regex test `/^v\d|^\d{4}/` used for version-like segments. -/
def isVersionLike (p : Str) : Bool :=
  match p with
  | 'v' :: c :: _ => c.isDigit
  | _ => decide ((p.take 4).length = 4) && (p.take 4).all Char.isDigit

/-- Splits a path on `/` and drops empty segments, the
`split("/").filter(Boolean)` idiom. -/
def pathParts (p : Str) : List Str := (splitCh '/' p).filter (fun l => l ≠ [])

/-- The rebuilt path of the version branch of `normalizeUrl`: the template
`/(parts up to the version).join("/")/(parts after).join("/")` with the
index found by `indexOf`. -/
def versionPath (urlPathParts : List Str) (v : Str) : Str :=
  let idx := urlPathParts.indexOf v
  str "/" ++ joinWith (str "/") (urlPathParts.take (idx + 1)) ++
    str "/" ++ joinWith (str "/") (urlPathParts.drop (idx + 1))

/-- Models `SiteIndexer.normalizeUrl`.  The final relative-resolution step
delegates to the abstract `Resolver`; the `catch` branch returns the
(fragment-stripped) local `url` variable. -/
def normalizeUrl (res : Resolver) (ctx : Ctx) (url0 : Str) : Str :=
  let url := stripFragment url0
  let basePathParts := pathParts ctx.basePath
  if startsWithL (str "http://") url || startsWithL (str "https://") url then
    let parsedUrl := urlParse url
    if parsedUrl.host = ctx.baseDomain then
      let urlPathParts := pathParts parsedUrl.pathname
      if urlPathParts.head? = basePathParts.head? then
        match (urlPathParts.drop 1).find? isVersionLike with
        | some v =>
          toStringU { parsedUrl with pathname := versionPath urlPathParts v }
        | none =>
          toStringU { parsedUrl with
            pathname := ctx.basePath ++ joinWith (str "/") (urlPathParts.drop 1) }
      else url
    else url
  else if startsWithL (str "//") url then
    (urlParse ctx.baseUrl).protocol ++ url
  else if startsWithL (str "/") url then
    let urlPathParts := pathParts url
    if urlPathParts.head? = basePathParts.head? then
      match (urlPathParts.drop 1).find? isVersionLike with
      | some _ => ctx.baseUrl ++ url
      | none => ctx.baseUrl ++ ctx.basePath ++ joinWith (str "/") (urlPathParts.drop 1)
    else ctx.baseUrl ++ url
  else
    match res url (ctx.baseUrl ++ ctx.basePath) with
    | some r => r
    | none => url

/-- Models `SiteIndexer.isValidUrl`. -/
def isValidUrl (ctx : Ctx) (url0 : Str) : Bool :=
  let url := stripFragment url0
  let parsed := urlParse url
  let baseDomainParts := splitCh '.' ctx.baseDomain
  let urlDomainParts := splitCh '.' parsed.host
  if baseDomainParts.length ≤ urlDomainParts.length then
    let urlEndParts := urlDomainParts.drop (urlDomainParts.length - baseDomainParts.length)
    decide (joinWith (str ".") urlEndParts = ctx.baseDomain)
  else
    false

/-! ## Content cleaner -/

/-- The per-line filter predicate of `SiteIndexer.cleanContent`, applied to
the array of trimmed lines at a given index. -/
def keepLine (arr : List Str) (i : Nat) : Bool :=
  let line := arr.getD i []
  if line ≠ [] then true
  else if 0 < i ∧ i < arr.length - 1 then
    let prevLine := arr.getD (i - 1) []
    let nextLine := arr.getD (i + 1) []
    decide (prevLine ≠ []) && decide (nextLine ≠ []) &&
      !startsWithL (str "#") prevLine &&
      !startsWithL (str "*") prevLine &&
      !startsWithL (str "-") prevLine &&
      !startsWithL (str "#") nextLine &&
      !startsWithL (str "*") nextLine &&
      !startsWithL (str "-") nextLine
  else false

/-- The index-based filter stage of `cleanContent`. -/
def cleanLines (arr : List Str) : List Str :=
  ((List.range arr.length).filter (fun i => keepLine arr i)).map (fun i => arr.getD i [])

/-- Models `SiteIndexer.cleanContent`: trim the text, split into lines,
trim each line, filter with the blank-line rules, and rejoin. -/
def cleanContent (content : Str) : Str :=
  joinWith (str "\n") (cleanLines ((splitCh '\n' (trimStr content)).map trimStr))

/-! ## Crawl pipeline -/

/-- The page data a successful fetch yields after the HTML and Markdown
collaborators run: the extracted title, converted content, and the raw
anchor hrefs found in the document. -/
structure Page where
  title : Str
  content : Str
  hrefs : List Str
deriving DecidableEq, Repr

/-- One record of the failure report. -/
structure FailedPage where
  url : Str
  reason : Str
  referrer : Str
deriving DecidableEq, Repr

/-- The abstract web: fetching plus parsing of a URL either fails with an
error message or produces a page. -/
abbrev Web := Str → Except Str Page

/-- The mutable crawl session state of `SiteIndexer`, together with
`dispatchLog`, the observational history of URLs handed to the fetcher. -/
structure CrawlState where
  visited : Finset Str
  queue : List Str
  referrerMap : List (Str × Str)
  failedPages : List FailedPage
  contentParts : List Str
  dispatchLog : List Str
deriving DecidableEq

/-- Lookup in the referrer map (models `Map.prototype.get`). -/
def lookupAssoc (m : List (Str × Str)) (k : Str) : Option Str :=
  (m.find? (fun p => p.1 = k)).map (fun p => p.2)

/-- Models `this.referrerMap.get(url) || "Initial URL"` (the JS `||`
treats the empty string as missing). -/
def referrerOrInit (m : List (Str × Str)) (url : Str) : Str :=
  match lookupAssoc m url with
  | some r => if r = [] then str "Initial URL" else r
  | none => str "Initial URL"

/-- Models `Map.prototype.has`. -/
def hasKey (m : List (Str × Str)) (k : Str) : Bool := (lookupAssoc m k).isSome

/-- The per-href admission test of `SiteIndexer.extractLinks`. -/
def linkFilter (res : Resolver) (ctx : Ctx) (visited : Finset Str) (href : Str) : Option Str :=
  if href ≠ [] && !startsWithL (str "#") href && !startsWithL (str "mailto:") href &&
      !startsWithL (str "tel:") href && !containsSub (str "javascript:") href then
    let normalizedUrl := normalizeUrl res ctx href
    if isValidUrl ctx normalizedUrl ∧ normalizedUrl ∉ visited then some normalizedUrl
    else none
  else none

/-- Models `SiteIndexer.extractLinks`: normalize and admit each href, then
deduplicate keeping first occurrences. -/
def extractLinks (res : Resolver) (ctx : Ctx) (visited : Finset Str) (hrefs : List Str) :
    List Str :=
  dedupFirst (hrefs.filterMap (linkFilter res ctx visited))

/-- The first-wins referrer recording loop of `SiteIndexer.processPage`. -/
def recordReferrers (url : Str) (m : List (Str × Str)) (links : List Str) :
    List (Str × Str) :=
  links.foldl (fun acc link => if hasKey acc link then acc else acc ++ [(link, url)]) m

/-- Models `SiteIndexer.processPage` together with the per-result corpus
accumulation of the crawl loop: a failed fetch appends one failure record;
a successful fetch records referrers, appends the new links to the queue,
and appends the cleaned section to the corpus parts. -/
def processPage (res : Resolver) (ctx : Ctx) (web : Web) (s : CrawlState) (url : Str) :
    CrawlState :=
  match web url with
  | .error msg =>
    { s with failedPages := s.failedPages ++
        [{ url := url, reason := msg, referrer := referrerOrInit s.referrerMap url }] }
  | .ok page =>
    let title := if page.title = [] then url else page.title
    let newLinks := extractLinks res ctx s.visited page.hrefs
    { s with
      referrerMap := recordReferrers url s.referrerMap newLinks
      queue := s.queue ++ newLinks
      contentParts := s.contentParts ++
        [str "# " ++ title ++ str "\n\n" ++ cleanContent page.content] }

/-- The synchronous visited-check-and-mark pass over one drained batch:
returns the extended visited set and the URLs actually dispatched, in
batch order. -/
def markBatch (visited : Finset Str) : List Str → Finset Str × List Str
  | [] => (visited, [])
  | u :: us =>
    if u ∈ visited then markBatch visited us
    else
      let r := markBatch (insert u visited) us
      (r.1, u :: r.2)

/-- One iteration of the `while` loop of `SiteIndexer.start`: drain a batch
of at most 5 URLs, mark and dispatch the not-yet-visited ones, and process
them. -/
def runBatch (res : Resolver) (ctx : Ctx) (web : Web) (s : CrawlState) : CrawlState :=
  let batch := s.queue.take 5
  let rest := s.queue.drop 5
  let marked := markBatch s.visited batch
  (marked.2).foldl (processPage res ctx web)
    { s with
      queue := rest
      visited := marked.1
      dispatchLog := s.dispatchLog ++ marked.2 }

/-- The state at the start of `SiteIndexer.start`: the seed (the base URL)
is the only frontier entry. -/
def initState (ctx : Ctx) : CrawlState :=
  { visited := ∅
    queue := [ctx.baseUrl]
    referrerMap := []
    failedPages := []
    contentParts := []
    dispatchLog := [] }

/-- The crawl loop, fuel-indexed: runs batches while the queue is nonempty. -/
def crawlLoop (res : Resolver) (ctx : Ctx) (web : Web) : Nat → CrawlState → CrawlState
  | 0, s => s
  | n + 1, s => if s.queue = [] then s else crawlLoop res ctx web n (runBatch res ctx web s)

/-- The final corpus written to `llms-full.txt` by `start`:
`contentParts.join("\n\n").trim()`. -/
def corpusOf (s : CrawlState) : Str := trimStr (joinWith (str "\n\n") s.contentParts)

/-! ## Generate mode -/

/-- The section title derived from a file path relative to the domain root:
strip a trailing `.md`, then replace every `/` by `" - "`. -/
def sectionTitle (relPath : Str) : Str :=
  let stripped := if endsWithL (str ".md") relPath then relPath.take (relPath.length - 3)
    else relPath
  stripped.flatMap (fun c => if c = '/' then str " - " else [c])

/-- Models `SiteIndexer.generateLlmsFromExisting` on the enumerated files,
given as (path relative to the domain directory, contents) pairs: keep the
`.md` files, emit a titled cleaned section per file with a separator line
pushed before every section but the first, and join on newline. -/
def generateCorpus (files : List (Str × Str)) : Str :=
  let mdFiles := files.filter (fun f => endsWithL (str ".md") f.1)
  let contentParts := mdFiles.enum.flatMap (fun p =>
    (if p.1 > 0 then [([] : Str)] else []) ++
      [str "# " ++ sectionTitle p.2.1 ++ str "\n" ++ cleanContent p.2.2])
  joinWith (str "\n") contentParts

/-- The corpus shape the specification describes for generate mode: one
section per markdown file, joined with exactly one blank line between
sections.  Stated from the specification for comparison with
`generateCorpus`. -/
def specCorpus (files : List (Str × Str)) : Str :=
  joinWith (str "\n\n")
    ((files.filter (fun f => endsWithL (str ".md") f.1)).map (fun f =>
      str "# " ++ sectionTitle f.1 ++ str "\n" ++ cleanContent f.2))

/-! ## Concrete fixtures used by witnesses and counterexamples -/

/-- A resolver that always fails, modeling `new URL` throwing on its input. -/
def noRes : Resolver := fun _ _ => none

/-- The crawl context built by the constructor for seed `https://x.test/`. -/
def ctxSeed : Ctx := mkCtx (str "https://x.test/")

/-- The crawl context built by the constructor for seed
`https://x.test/docs/guide/`. -/
def ctxDocs : Ctx := mkCtx (str "https://x.test/docs/guide/")

/-- A web on which every fetch fails with a network error. -/
def webFail : Web := fun _ => Except.error (str "network error")

/-- A page whose only link is the root-relative href `/a`. -/
def pageA : Page := { title := str "t", content := str "c", hrefs := [str "/a"] }

/-- A web serving `pageA` for every URL. -/
def webA : Web := fun _ => Except.ok pageA

/-- A crawl state whose referrer map already holds `https://x.test/a`. -/
def stateA : CrawlState :=
  { visited := ∅
    queue := []
    referrerMap := [(str "https://x.test/a", str "https://x.test/r")]
    failedPages := []
    contentParts := []
    dispatchLog := [] }

/-- The no-refetch invariant: the dispatch log has no repeats and its
entries are exactly the visited set. -/
def crawlInv (s : CrawlState) : Prop :=
  s.dispatchLog.Nodup ∧ s.dispatchLog.toFinset = s.visited

/-- Test that a line begins with `#`, `*`, or `-`. -/
def isSpecialLine (l : Str) : Bool :=
  startsWithL (str "#") l || startsWithL (str "*") l || startsWithL (str "-") l

/-- The trimmed line array that `cleanContent` builds from its input. -/
def linesOf (content : Str) : List Str := (splitCh '\n' (trimStr content)).map trimStr

/-- A forbidden adjacency in cleaned output: two blank lines next to each
other, or a blank line next to a heading or list-item line. -/
def badPair (a b : Str) : Bool :=
  (decide (a = []) && (decide (b = []) || isSpecialLine b)) ||
    (decide (b = []) && isSpecialLine a)

/-- Scan of consecutive line pairs for forbidden adjacencies. -/
def noBadPairs : List Str → Bool
  | a :: b :: rest => !badPair a b && noBadPairs (b :: rest)
  | _ => true

/-- A well-formed base context path: it starts and ends with `/` and holds
no query or fragment characters; the constructor produces such a path for
any `http(s)` seed whose path is free of `?` and `#`. -/
def wellFormedPath (p : Str) : Prop :=
  p.head? = some '/' ∧ p.getLast? = some '/' ∧ '?' ∉ p ∧ '#' ∉ p

/-! ## General lemmas about the string primitives -/

theorem splitCh_ne_nil (c : Char) (s : Str) : splitCh c s ≠ [] := by
  cases s with
  | nil => simp [splitCh]
  | cons a s =>
    simp only [splitCh]
    split <;> simp

theorem headD_mem {α : Type} {l : List α} (d : α) (h : l ≠ []) : l.headD d ∈ l := by
  cases l with
  | nil => exact absurd rfl h
  | cons a t => simp [List.headD]


theorem splitCh_sep (c : Char) (s : Str) : splitCh c (c :: s) = [] :: splitCh c s := by
  simp [splitCh]

theorem splitCh_nsep {a c : Char} (s : Str) (hac : a ≠ c) :
    splitCh c (a :: s) = (a :: (splitCh c s).headD []) :: (splitCh c s).tail := by
  simp [splitCh, hac]

theorem not_mem_splitCh (c : Char) (s : Str) : ∀ l ∈ splitCh c s, c ∉ l := by
  induction s with
  | nil => intro l hl; simp [splitCh] at hl; simp [hl]
  | cons a s ih =>
    intro l hl
    by_cases hac : a = c
    · subst hac
      rw [splitCh_sep, List.mem_cons] at hl
      rcases hl with h | h
      · simp [h]
      · exact ih l h
    · rw [splitCh_nsep s hac, List.mem_cons] at hl
      rcases hl with h | h
      · subst h
        intro hmem
        rw [List.mem_cons] at hmem
        rcases hmem with h1 | h1
        · exact hac h1.symm
        · exact ih _ (headD_mem [] (splitCh_ne_nil c s)) h1
      · exact ih l (List.mem_of_mem_tail h)

theorem joinWith_splitCh (c : Char) (s : Str) : joinWith [c] (splitCh c s) = s := by
  induction s with
  | nil => rfl
  | cons a s ih =>
    by_cases hac : a = c
    · subst hac
      rw [splitCh_sep]
      obtain ⟨r0, rs, hr⟩ : ∃ r0 rs, splitCh a s = r0 :: rs := by
        cases h : splitCh a s with
        | nil => exact absurd h (splitCh_ne_nil a s)
        | cons r0 rs => exact ⟨r0, rs, rfl⟩
      rw [hr]
      rw [hr] at ih
      show [] ++ [a] ++ joinWith [a] (r0 :: rs) = a :: s
      simpa using ih
    · rw [splitCh_nsep s hac]
      cases h : splitCh c s with
      | nil => exact absurd h (splitCh_ne_nil c s)
      | cons r0 rs =>
        rw [h] at ih
        cases rs with
        | nil =>
          show joinWith [c] [a :: r0] = a :: s
          simp only [joinWith]
          simpa [joinWith] using ih
        | cons r1 rs2 =>
          show joinWith [c] ((a :: r0) :: r1 :: rs2) = a :: s
          simp only [joinWith] at ih ⊢
          simpa [List.append_assoc] using ih

theorem sep_append_inj {c : Char} : ∀ {a b x y : Str}, c ∉ a → c ∉ b →
    a ++ c :: x = b ++ c :: y → a = b ∧ x = y := by
  intro a
  induction a with
  | nil =>
    intro b x y _ hb h
    cases b with
    | nil => simpa using h
    | cons bb bs =>
      simp only [List.nil_append, List.cons_append, List.cons.injEq] at h
      exact absurd (h.1 ▸ List.mem_cons_self bb bs) hb
  | cons aa as ih =>
    intro b x y ha hb h
    cases b with
    | nil =>
      simp only [List.cons_append, List.nil_append, List.cons.injEq] at h
      exact absurd (h.1 ▸ List.mem_cons_self aa as) ha
    | cons bb bs =>
      simp only [List.cons_append, List.cons.injEq] at h
      obtain ⟨h1, h2⟩ := h
      have ha2 : c ∉ as := fun hm => ha (List.mem_cons_of_mem aa hm)
      have hb2 : c ∉ bs := fun hm => hb (List.mem_cons_of_mem bb hm)
      obtain ⟨e1, e2⟩ := ih ha2 hb2 h2
      exact ⟨by rw [h1, e1], e2⟩

theorem joinWith_sep_inj (c : Char) : ∀ (A B : List Str), (∀ l ∈ A, c ∉ l) →
    (∀ l ∈ B, c ∉ l) → A.length = B.length →
    joinWith [c] A = joinWith [c] B → A = B := by
  intro A
  induction A with
  | nil =>
    intro B _ _ hlen _
    cases B with
    | nil => rfl
    | cons b bs => simp at hlen
  | cons a as ih =>
    intro B hA hB hlen hj
    cases B with
    | nil => simp at hlen
    | cons b bs =>
      cases as with
      | nil =>
        cases bs with
        | nil => simpa [joinWith] using hj
        | cons b2 bs2 => simp at hlen
      | cons a2 as2 =>
        cases bs with
        | nil => simp at hlen
        | cons b2 bs2 =>
          have hj2 : a ++ c :: joinWith [c] (a2 :: as2) = b ++ c :: joinWith [c] (b2 :: bs2) := by
            simpa [joinWith, List.append_assoc] using hj
          obtain ⟨e1, e2⟩ := sep_append_inj (hA a (by simp)) (hB b (by simp)) hj2
          have := ih (b2 :: bs2) (fun l hl => hA l (List.mem_cons_of_mem a hl))
            (fun l hl => hB l (List.mem_cons_of_mem b hl)) (by simpa using hlen) e2
          rw [e1, this]

/-! ## C7: the domain validator accepts exactly label-suffix hosts -/

/-- C7: `isValidUrl` returns true iff the base host's dot-separated labels
are a suffix of the candidate host's labels (compared from the right), so
it accepts the exact base host and its subdomains, and rejects hosts whose
label sequence does not end with the base labels, in particular candidates
with fewer labels than the base. -/
theorem c7_domain_validator_suffix (ctx : Ctx) (url0 : Str) :
    isValidUrl ctx url0 = true ↔
      ∃ t, splitCh '.' (urlParse (stripFragment url0)).host =
        t ++ splitCh '.' ctx.baseDomain := by
  have hdot : str "." = ['.'] := rfl
  constructor
  · intro h
    unfold isValidUrl at h
    by_cases hle : (splitCh '.' ctx.baseDomain).length ≤
        (splitCh '.' (urlParse (stripFragment url0)).host).length
    · rw [if_pos hle, hdot, decide_eq_true_eq] at h
      set U := splitCh '.' (urlParse (stripFragment url0)).host with hU
      set B := splitCh '.' ctx.baseDomain with hB
      have hlen : (U.drop (U.length - B.length)).length = B.length := by
        rw [List.length_drop]
        omega
      have hjoinB : joinWith ['.'] B = ctx.baseDomain := joinWith_splitCh '.' ctx.baseDomain
      have heq : U.drop (U.length - B.length) = B := by
        apply joinWith_sep_inj '.' _ _ ?_ ?_ hlen
        · rw [h, ← hjoinB]
        · intro l hl
          exact not_mem_splitCh '.' _ l (List.mem_of_mem_drop hl)
        · intro l hl
          exact not_mem_splitCh '.' _ l hl
      refine ⟨U.take (U.length - B.length), ?_⟩
      conv_lhs => rw [← List.take_append_drop (U.length - B.length) U]
      rw [heq]
    · rw [if_neg hle] at h
      exact absurd h (by simp)
  · rintro ⟨t, ht⟩
    unfold isValidUrl
    set U := splitCh '.' (urlParse (stripFragment url0)).host with hU
    set B := splitCh '.' ctx.baseDomain with hB
    have hlen : U.length = t.length + B.length := by rw [ht, List.length_append]
    have hle : B.length ≤ U.length := by omega
    rw [if_pos hle, hdot, decide_eq_true_eq]
    have hk : U.length - B.length = t.length := by omega
    rw [← hU, hk, ht, List.drop_left]
    exact joinWith_splitCh '.' ctx.baseDomain

/-! ## C10: link extraction deduplicates and admits only valid unvisited URLs -/

theorem dedupAux_spec (l : List Str) : ∀ seen : List Str,
    (dedupAux seen l).Nodup ∧ ∀ x ∈ dedupAux seen l, x ∉ seen ∧ x ∈ l := by
  induction l with
  | nil => intro seen; simp [dedupAux]
  | cons x xs ih =>
    intro seen
    by_cases hx : x ∈ seen
    · simp only [dedupAux, if_pos hx]
      refine ⟨(ih seen).1, fun y hy => ?_⟩
      obtain ⟨h1, h2⟩ := (ih seen).2 y hy
      exact ⟨h1, List.mem_cons_of_mem x h2⟩
    · simp only [dedupAux, if_neg hx]
      constructor
      · refine List.nodup_cons.mpr ⟨fun hmem => ?_, (ih (x :: seen)).1⟩
        exact ((ih (x :: seen)).2 x hmem).1 (List.mem_cons_self x seen)
      · intro y hy
        rw [List.mem_cons] at hy
        rcases hy with rfl | hy
        · exact ⟨hx, List.mem_cons_self y xs⟩
        · obtain ⟨h1, h2⟩ := (ih (x :: seen)).2 y hy
          exact ⟨fun hm => h1 (List.mem_cons_of_mem x hm), List.mem_cons_of_mem x h2⟩

/-- C10: the list of links returned by `extractLinks` has no duplicates,
and every returned URL passed domain validation and was absent from the
visited set at extraction time. -/
theorem c10_extract_links_nodup (res : Resolver) (ctx : Ctx) (visited : Finset Str)
    (hrefs : List Str) :
    (extractLinks res ctx visited hrefs).Nodup ∧
      ∀ u ∈ extractLinks res ctx visited hrefs, isValidUrl ctx u = true ∧ u ∉ visited := by
  refine ⟨(dedupAux_spec _ []).1, fun u hu => ?_⟩
  have hmem : u ∈ hrefs.filterMap (linkFilter res ctx visited) :=
    ((dedupAux_spec _ []).2 u hu).2
  rw [List.mem_filterMap] at hmem
  obtain ⟨href, _, hf⟩ := hmem
  unfold linkFilter at hf
  split at hf
  · have hf2 : (if isValidUrl ctx (normalizeUrl res ctx href) = true ∧
        normalizeUrl res ctx href ∉ visited then some (normalizeUrl res ctx href)
        else none) = some u := hf
    split at hf2
    next h2 =>
      rw [Option.some.injEq] at hf2
      subst hf2
      exact h2
    next => simp at hf2
  · simp at hf

/-- Witness for C10: applies the theorem to a concrete page extraction. -/
theorem c10_witness :
    isValidUrl ctxSeed (str "https://x.test/a") = true ∧
      str "https://x.test/a" ∉ (∅ : Finset Str) :=
  (c10_extract_links_nodup noRes ctxSeed ∅ [str "/a"]).2 (str "https://x.test/a") (by decide)

/-! ## C8: enqueue appends all links; referrer recording is first-wins -/

theorem lookupAssoc_append (m m2 : List (Str × Str)) (k : Str) :
    lookupAssoc (m ++ m2) k = (lookupAssoc m k).orElse (fun _ => lookupAssoc m2 k) := by
  unfold lookupAssoc
  rw [List.find?_append]
  cases List.find? (fun p => p.1 = k) m <;> simp [Option.orElse]

theorem lookup_recordReferrers (url : Str) : ∀ (links : List Str) (m : List (Str × Str))
    (l : Str), lookupAssoc (recordReferrers url m links) l =
      (lookupAssoc m l).orElse (fun _ => if l ∈ links then some url else none) := by
  intro links
  induction links with
  | nil =>
    intro m l
    simp only [recordReferrers, List.foldl_nil, List.not_mem_nil, if_false]
    cases lookupAssoc m l <;> simp [Option.orElse]
  | cons link rest ih =>
    intro m l
    have hstep : recordReferrers url m (link :: rest) =
        recordReferrers url (if hasKey m link then m else m ++ [(link, url)]) rest := by
      simp only [recordReferrers, List.foldl_cons]
    rw [hstep]
    by_cases hk : hasKey m link
    · rw [if_pos hk, ih]
      by_cases hl : l = link
      · subst hl
        obtain ⟨r, hr⟩ := Option.isSome_iff_exists.mp hk
        rw [hr]
        simp [Option.orElse]
      · simp only [List.mem_cons, hl, false_or]
    · rw [if_neg hk, ih, lookupAssoc_append]
      have hnone : lookupAssoc m link = none := by
        unfold hasKey at hk
        exact Option.not_isSome_iff_eq_none.mp hk
      by_cases hl : l = link
      · subst hl
        rw [hnone]
        simp [lookupAssoc, Option.orElse]
      · have hsing : lookupAssoc [(link, url)] l = none := by
          simp only [lookupAssoc, List.find?]
          have : (decide ((link, url).1 = l)) = false := by
            simp [decide_eq_false_iff_not]
            exact fun e => hl e.symm
          rw [this]
          rfl
        cases hm : lookupAssoc m l <;>
          simp [Option.orElse, hsing, List.mem_cons, hl]

/-- C8 amended: on a successful fetch every extracted link is appended to
the frontier queue (already-known links included), while the referrer map
records the page as referrer exactly for the links not already present:
a link already present keeps its first recorded referrer. -/
theorem c8_enqueue_first_wins (res : Resolver) (ctx : Ctx) (web : Web) (s : CrawlState)
    (url : Str) (page : Page) (h : web url = Except.ok page) :
    (processPage res ctx web s url).queue =
        s.queue ++ extractLinks res ctx s.visited page.hrefs ∧
      ∀ l, lookupAssoc (processPage res ctx web s url).referrerMap l =
        if (lookupAssoc s.referrerMap l).isSome then lookupAssoc s.referrerMap l
        else if l ∈ extractLinks res ctx s.visited page.hrefs then some url else none := by
  constructor
  · simp [processPage, h]
  · intro l
    have hm : (processPage res ctx web s url).referrerMap =
        recordReferrers url s.referrerMap (extractLinks res ctx s.visited page.hrefs) := by
      simp [processPage, h]
    rw [hm, lookup_recordReferrers]
    cases hx : lookupAssoc s.referrerMap l <;> simp [Option.orElse]

/-- Witness for the amended C8 at a concrete state and page. -/
theorem c8_witness :
    (processPage noRes ctxSeed webA stateA (str "https://x.test/p")).queue =
      stateA.queue ++ extractLinks noRes ctxSeed stateA.visited pageA.hrefs :=
  (c8_enqueue_first_wins noRes ctxSeed webA stateA (str "https://x.test/p") pageA rfl).1

/-- C8 counterexample: a link already present in the referrer map is
appended to the frontier queue again (the claim says it is not), while
its first recorded referrer is kept. -/
theorem c8_counterexample :
    lookupAssoc stateA.referrerMap (str "https://x.test/a") = some (str "https://x.test/r") ∧
      stateA.queue = [] ∧
      (processPage noRes ctxSeed webA stateA (str "https://x.test/p")).queue =
        [str "https://x.test/a"] ∧
      lookupAssoc (processPage noRes ctxSeed webA stateA (str "https://x.test/p")).referrerMap
        (str "https://x.test/a") = some (str "https://x.test/r") := by
  decide

/-! ## C2: failure handling -/

theorem crawlLoop_empty (res : Resolver) (ctx : Ctx) (web : Web) :
    ∀ (n : Nat) (s : CrawlState), s.queue = [] → crawlLoop res ctx web n s = s := by
  intro n
  induction n with
  | zero => intro s _; rfl
  | succ n _ => intro s h; simp [crawlLoop, h]

/-- C2: a failed fetch appends exactly one failure record, whose reason is
the error message and whose referrer is the recorded referrer or the
sentinel `Initial URL` when none is recorded; nothing else of the state
changes.  In the seed-failure scenario the whole crawl terminates with
exactly that record and an empty corpus. -/
theorem c2_failure_record (res : Resolver) (ctx : Ctx) (web : Web) (s : CrawlState)
    (url msg : Str) (h : web url = Except.error msg) :
    processPage res ctx web s url =
      { s with failedPages := s.failedPages ++
          [{ url := url, reason := msg, referrer := referrerOrInit s.referrerMap url }] } ∧
    (lookupAssoc s.referrerMap url = none →
      referrerOrInit s.referrerMap url = str "Initial URL") ∧
    (∀ r, lookupAssoc s.referrerMap url = some r → r ≠ [] →
      referrerOrInit s.referrerMap url = r) ∧
    ∀ fuel, crawlLoop noRes ctxSeed webFail (fuel + 1) (initState ctxSeed) =
        { initState ctxSeed with
          visited := {str "https://x.test"}
          queue := []
          dispatchLog := [str "https://x.test"]
          failedPages := [{ url := str "https://x.test"
                            reason := str "network error"
                            referrer := str "Initial URL" }] } ∧
      corpusOf (crawlLoop noRes ctxSeed webFail (fuel + 1) (initState ctxSeed)) = [] := by
  refine ⟨by simp [processPage, h], fun hn => by simp [referrerOrInit, hn],
    fun r hr hne => by simp [referrerOrInit, hr, hne], fun fuel => ?_⟩
  have h1 : crawlLoop noRes ctxSeed webFail (fuel + 1) (initState ctxSeed) =
      crawlLoop noRes ctxSeed webFail fuel (runBatch noRes ctxSeed webFail (initState ctxSeed)) := by
    have hq : (initState ctxSeed).queue ≠ [] := by decide
    simp [crawlLoop, hq]
  have h2 : runBatch noRes ctxSeed webFail (initState ctxSeed) =
      { initState ctxSeed with
        visited := {str "https://x.test"}
        queue := []
        dispatchLog := [str "https://x.test"]
        failedPages := [{ url := str "https://x.test"
                          reason := str "network error"
                          referrer := str "Initial URL" }] } := by decide
  rw [h1, h2, crawlLoop_empty noRes ctxSeed webFail fuel _ rfl]
  exact ⟨rfl, by decide⟩

/-- Witness for C2: the seed-failure scenario at one unit of fuel. -/
theorem c2_witness :
    corpusOf (crawlLoop noRes ctxSeed webFail 1 (initState ctxSeed)) = [] :=
  ((c2_failure_record noRes ctxSeed webFail (initState ctxSeed) (str "https://x.test")
    (str "network error") rfl).2.2.2 0).2

/-! ## C5: the lossy fallback of the normalizer -/

theorem stripFragment_eq_self {s : Str} (h : '#' ∉ s) : stripFragment s = s := by
  unfold stripFragment
  induction s with
  | nil => rfl
  | cons a s ih =>
    have ha : a ≠ '#' := fun e => h (e ▸ List.mem_cons_self a s)
    have hs : '#' ∉ s := fun hm => h (List.mem_cons_of_mem a hm)
    simp [List.takeWhile_cons, ha, ih hs]
    exact fun x hx e => hs (e ▸ hx)

/-- C5 counterexample: on a resolution failure for a fragment-bearing
href the normalizer returns the fragment-stripped string, which differs
from the original input. -/
theorem c5_counterexample :
    normalizeUrl noRes ctxSeed (str "HTTP://bad host#f") = str "HTTP://bad host" ∧
      normalizeUrl noRes ctxSeed (str "HTTP://bad host#f") ≠ str "HTTP://bad host#f" := by
  decide

/-- C5 amended: the normalizer is total by construction, and when the
relative-resolution collaborator fails it returns the fragment-stripped
input, which equals the original href exactly when the href contains no
`#`. -/
theorem c5_fallback_stripped (res : Resolver) (ctx : Ctx) (url : Str)
    (h1 : startsWithL (str "http://") (stripFragment url) = false)
    (h2 : startsWithL (str "https://") (stripFragment url) = false)
    (h3 : startsWithL (str "//") (stripFragment url) = false)
    (h4 : startsWithL (str "/") (stripFragment url) = false)
    (h5 : res (stripFragment url) (ctx.baseUrl ++ ctx.basePath) = none) :
    normalizeUrl res ctx url = stripFragment url ∧
      ('#' ∉ url → normalizeUrl res ctx url = url) := by
  have hmain : normalizeUrl res ctx url = stripFragment url := by
    simp [normalizeUrl, h1, h2, h3, h4, h5]
  exact ⟨hmain, fun hf => by rw [hmain, stripFragment_eq_self hf]⟩

/-- Witness for the amended C5 on concrete failing hrefs. -/
theorem c5_witness :
    normalizeUrl noRes ctxSeed (str "xyz#f") = str "xyz" ∧
      normalizeUrl noRes ctxSeed (str "xyz") = str "xyz" := by
  constructor
  · exact ((c5_fallback_stripped noRes ctxSeed (str "xyz#f") (by decide) (by decide)
      (by decide) (by decide) rfl).1).trans (by decide)
  · exact (c5_fallback_stripped noRes ctxSeed (str "xyz") (by decide) (by decide)
      (by decide) (by decide) rfl).2 (by decide)

/-! ## C4 counterexample -/

/-- C4 counterexample: a run of two blank lines between two plain
paragraph lines is removed entirely by the cleaner, not collapsed to one
blank line as the claim states. -/
theorem c4_counterexample :
    cleanContent (str "a\n\n\nb") = str "a\nb" ∧
      cleanContent (str "a\n\n\nb") ≠ str "a\n\nb" := by
  decide

/-! ## C9: generate mode produces titled sections with single blank separators -/

theorem enumFrom_flatMap_blank {α : Type} (g : α → Str) : ∀ (fs : List α) (n : Nat),
    (List.enumFrom (n + 1) fs).flatMap
        (fun p => (if p.1 > 0 then [([] : Str)] else []) ++ [g p.2]) =
      fs.flatMap (fun f => [[], g f]) := by
  intro fs
  induction fs with
  | nil => intro n; rfl
  | cons f fs ih =>
    intro n
    simp only [List.enumFrom, List.flatMap_cons]
    rw [ih (n + 1)]
    simp

theorem joinNl_interleave {α : Type} (g : α → Str) : ∀ (fs : List α) (s0 : Str),
    joinWith (str "\n") (s0 :: fs.flatMap (fun x => [[], g x])) =
      joinWith (str "\n\n") (s0 :: fs.map g) := by
  intro fs
  induction fs with
  | nil => intro s0; rfl
  | cons f fs ih =>
    intro s0
    have lhs : joinWith (str "\n") (s0 :: ([] : Str) :: g f :: fs.flatMap (fun x => [[], g x])) =
        s0 ++ str "\n" ++ (([] : Str) ++ str "\n" ++
          joinWith (str "\n") (g f :: fs.flatMap (fun x => [[], g x]))) := rfl
    have rhs : joinWith (str "\n\n") (s0 :: g f :: fs.map g) =
        s0 ++ str "\n\n" ++ joinWith (str "\n\n") (g f :: fs.map g) := rfl
    show joinWith (str "\n") (s0 :: ([] : Str) :: g f :: fs.flatMap (fun x => [[], g x])) = _
    rw [lhs, ih (g f)]
    simp only [List.map_cons]
    rw [rhs]
    simp [str, List.append_assoc]

theorem joinParts_eq {α : Type} (g : α → Str) (l : List α) :
    joinWith (str "\n")
        (l.enum.flatMap (fun p => (if p.1 > 0 then [([] : Str)] else []) ++ [g p.2])) =
      joinWith (str "\n\n") (l.map g) := by
  cases l with
  | nil => rfl
  | cons f fs =>
    rw [List.enum_cons]
    simp only [List.flatMap_cons, gt_iff_lt, lt_self_iff_false, if_false, List.nil_append,
      List.singleton_append]
    rw [show (1 : Nat) = 0 + 1 from rfl, enumFrom_flatMap_blank g fs 0]
    exact joinNl_interleave g fs (g f)

/-- C9: generate mode rebuilds the corpus as one section per markdown
file, each titled from the file path relative to the domain root with the
`.md` suffix stripped and separators replaced by `" - "`, each body
cleaned, with no blank line before the first section and exactly one
blank line between sections; files `a.md` and `b/c.md` yield sections
titled `a` and `b - c`. -/
theorem c9_generate_sections (files : List (Str × Str)) (ca cb : Str) :
    generateCorpus files = specCorpus files ∧
      generateCorpus [(str "a.md", ca), (str "b/c.md", cb)] =
        str "# a\n" ++ cleanContent ca ++ str "\n\n" ++ (str "# b - c\n" ++ cleanContent cb) := by
  have hgen : ∀ fl : List (Str × Str), generateCorpus fl = specCorpus fl := by
    intro fl
    unfold generateCorpus specCorpus
    exact joinParts_eq (fun f => str "# " ++ sectionTitle f.1 ++ str "\n" ++ cleanContent f.2)
      (fl.filter (fun f => endsWithL (str ".md") f.1))
  refine ⟨hgen files, ?_⟩
  rw [hgen]
  show joinWith (str "\n\n")
      (([(str "a.md", ca), (str "b/c.md", cb)].filter
        (fun f => endsWithL (str ".md") f.1)).map
        (fun f => str "# " ++ sectionTitle f.1 ++ str "\n" ++ cleanContent f.2)) = _
  have hfilter : [(str "a.md", ca), (str "b/c.md", cb)].filter
      (fun f => endsWithL (str ".md") f.1) = [(str "a.md", ca), (str "b/c.md", cb)] := by
    simp only [List.filter]
    rw [show endsWithL (str ".md") (str "a.md") = true from by decide,
      show endsWithL (str ".md") (str "b/c.md") = true from by decide]
  rw [hfilter]
  show (str "# " ++ sectionTitle (str "a.md") ++ str "\n" ++ cleanContent ca) ++ str "\n\n" ++
      (str "# " ++ sectionTitle (str "b/c.md") ++ str "\n" ++ cleanContent cb) = _
  rw [show sectionTitle (str "a.md") = str "a" from by decide,
    show sectionTitle (str "b/c.md") = str "b - c" from by decide,
    show str "# " ++ str "a" ++ str "\n" = str "# a\n" from by decide,
    show str "# " ++ str "b - c" ++ str "\n" = str "# b - c\n" from by decide]

/-! ## C1: no URL is dispatched twice -/

theorem markBatch_spec : ∀ (batch : List Str) (visited : Finset Str),
    (markBatch visited batch).1 = visited ∪ (markBatch visited batch).2.toFinset ∧
      (markBatch visited batch).2.Nodup ∧
      ∀ u ∈ (markBatch visited batch).2, u ∉ visited := by
  intro batch
  induction batch with
  | nil => intro visited; simp [markBatch]
  | cons u us ih =>
    intro visited
    by_cases hu : u ∈ visited
    · simp only [markBatch, if_pos hu]
      exact ih visited
    · simp only [markBatch, if_neg hu]
      obtain ⟨h1, h2, h3⟩ := ih (insert u visited)
      refine ⟨?_, ?_, ?_⟩
      · rw [h1, List.toFinset_cons]
        ext x
        simp only [Finset.mem_union, Finset.mem_insert, List.mem_toFinset]
        tauto
      · exact List.nodup_cons.mpr
          ⟨fun hm => (h3 u hm) (Finset.mem_insert_self u visited), h2⟩
      · intro x hx
        rw [List.mem_cons] at hx
        rcases hx with rfl | hx
        · exact hu
        · exact fun hv => (h3 x hx) (Finset.mem_insert_of_mem hv)

theorem processPage_visited_log (res : Resolver) (ctx : Ctx) (web : Web) (s : CrawlState)
    (url : Str) :
    (processPage res ctx web s url).visited = s.visited ∧
      (processPage res ctx web s url).dispatchLog = s.dispatchLog := by
  unfold processPage
  cases web url <;> simp

theorem foldl_processPage_visited_log (res : Resolver) (ctx : Ctx) (web : Web) :
    ∀ (urls : List Str) (s : CrawlState),
      (urls.foldl (processPage res ctx web) s).visited = s.visited ∧
        (urls.foldl (processPage res ctx web) s).dispatchLog = s.dispatchLog := by
  intro urls
  induction urls with
  | nil => intro s; exact ⟨rfl, rfl⟩
  | cons u us ih =>
    intro s
    rw [List.foldl_cons]
    obtain ⟨h1, h2⟩ := ih (processPage res ctx web s u)
    obtain ⟨g1, g2⟩ := processPage_visited_log res ctx web s u
    exact ⟨h1.trans g1, h2.trans g2⟩

theorem runBatch_proj (res : Resolver) (ctx : Ctx) (web : Web) (s : CrawlState) :
    (runBatch res ctx web s).visited = (markBatch s.visited (s.queue.take 5)).1 ∧
      (runBatch res ctx web s).dispatchLog =
        s.dispatchLog ++ (markBatch s.visited (s.queue.take 5)).2 := by
  unfold runBatch
  obtain ⟨h1, h2⟩ := foldl_processPage_visited_log res ctx web
    (markBatch s.visited (s.queue.take 5)).2
    { s with
      queue := s.queue.drop 5
      visited := (markBatch s.visited (s.queue.take 5)).1
      dispatchLog := s.dispatchLog ++ (markBatch s.visited (s.queue.take 5)).2 }
  exact ⟨h1, h2⟩

theorem runBatch_inv {res : Resolver} {ctx : Ctx} {web : Web} {s : CrawlState}
    (h : crawlInv s) : crawlInv (runBatch res ctx web s) := by
  obtain ⟨hp1, hp2⟩ := runBatch_proj res ctx web s
  obtain ⟨m1, m2, m3⟩ := markBatch_spec (s.queue.take 5) s.visited
  constructor
  · rw [hp2, List.nodup_append]
    exact ⟨h.1, m2, fun x hx hx2 =>
      (m3 x hx2) (h.2 ▸ List.mem_toFinset.mpr hx)⟩
  · rw [hp2, hp1, List.toFinset_append, h.2, m1]

theorem runBatch_visited_mono (res : Resolver) (ctx : Ctx) (web : Web) (s : CrawlState) :
    s.visited ⊆ (runBatch res ctx web s).visited := by
  rw [(runBatch_proj res ctx web s).1, (markBatch_spec (s.queue.take 5) s.visited).1]
  exact Finset.subset_union_left

theorem crawlLoop_inv (res : Resolver) (ctx : Ctx) (web : Web) :
    ∀ (n : Nat) (s : CrawlState), crawlInv s → crawlInv (crawlLoop res ctx web n s) := by
  intro n
  induction n with
  | zero => intro s h; exact h
  | succ n ih =>
    intro s h
    rw [crawlLoop]
    split
    · exact h
    · exact ih _ (runBatch_inv h)

/-- C1: along every crawl run from a seed the dispatch log never repeats a
URL, its entries are exactly the visited set (entries are only ever
inserted, never removed), and hence the number of distinct URLs ever
dispatched equals the final visited-set cardinality. -/
theorem c1_dispatch_once (res : Resolver) (ctx : Ctx) (web : Web) (fuel : Nat) :
    ((crawlLoop res ctx web fuel (initState ctx)).dispatchLog.Nodup ∧
      (crawlLoop res ctx web fuel (initState ctx)).dispatchLog.toFinset =
        (crawlLoop res ctx web fuel (initState ctx)).visited ∧
      (crawlLoop res ctx web fuel (initState ctx)).dispatchLog.length =
        (crawlLoop res ctx web fuel (initState ctx)).visited.card) ∧
    ∀ s : CrawlState, s.visited ⊆ (runBatch res ctx web s).visited := by
  have hinv : crawlInv (crawlLoop res ctx web fuel (initState ctx)) :=
    crawlLoop_inv res ctx web fuel (initState ctx) ⟨List.nodup_nil, rfl⟩
  refine ⟨⟨hinv.1, hinv.2, ?_⟩, fun s => runBatch_visited_mono res ctx web s⟩
  rw [← hinv.2, List.toFinset_card_of_nodup hinv.1]

/-! ## Trim lemmas used by the content cleaner proofs -/

theorem dropWhile_shape (p : Char → Bool) : ∀ s : Str,
    s.dropWhile p = [] ∨ ∃ a t, s.dropWhile p = a :: t ∧ p a = false := by
  intro s
  induction s with
  | nil => left; rfl
  | cons a t ih =>
    rw [List.dropWhile_cons]
    by_cases hp : p a = true
    · simpa [hp] using ih
    · right
      exact ⟨a, t, by simp [hp], by simpa using hp⟩

theorem dropWhile_eq_self_of_head {p : Char → Bool} {a : Char} {t : Str} (hp : p a = false) :
    (a :: t).dropWhile p = a :: t := by
  simp [List.dropWhile_cons, hp]

theorem trimRightWS_isPre (u : Str) : ∃ v, u = trimRightWS u ++ v := by
  refine ⟨(u.reverse.takeWhile isWS).reverse, ?_⟩
  unfold trimRightWS
  conv_lhs => rw [← List.reverse_reverse u, ← List.takeWhile_append_dropWhile (p := isWS) (l := u.reverse)]
  rw [List.reverse_append]

theorem trimStr_head_shape (s : Str) :
    trimStr s = [] ∨ ∃ a t, trimStr s = a :: t ∧ isWS a = false := by
  cases hw : trimStr s with
  | nil => left; rfl
  | cons b w =>
    right
    refine ⟨b, w, rfl, ?_⟩
    obtain ⟨v, hv⟩ := trimRightWS_isPre (trimLeftWS s)
    rcases dropWhile_shape isWS s with h | ⟨a, t, h, ha⟩
    · exfalso
      have hu : trimLeftWS s = [] := h
      rw [hu] at hv
      have : trimRightWS [] = [] := rfl
      unfold trimStr at hw
      rw [hu, this] at hw
      exact List.noConfusion hw
    · have hu : trimLeftWS s = a :: t := h
      unfold trimStr at hw
      rw [hw] at hv
      rw [hu] at hv
      have : a = b := by
        cases hv0 : (b :: w) ++ v with
        | nil => simp at hv0
        | cons x y =>
          rw [hv0] at hv
          rw [List.cons_append] at hv0
          injection hv0 with e1 _
          injection hv with e2 _
          rw [e2, ← e1]
      rw [← this]
      exact ha

theorem trimStr_getLast_shape (s : Str) :
    trimStr s = [] ∨ ∃ a, (trimStr s).getLast? = some a ∧ isWS a = false := by
  unfold trimStr trimRightWS
  rcases dropWhile_shape isWS (trimLeftWS s).reverse with h | ⟨a, t, h, ha⟩
  · left; rw [h]; rfl
  · right
    refine ⟨a, ?_, ha⟩
    rw [h, List.getLast?_reverse]
    rfl

theorem trimStr_idem (s : Str) : trimStr (trimStr s) = trimStr s := by
  rcases trimStr_head_shape s with h | ⟨a, t, h, ha⟩
  · rw [h]; rfl
  · have h1 : trimLeftWS (trimStr s) = trimStr s := by
      rw [h]
      exact dropWhile_eq_self_of_head ha
    rcases trimStr_getLast_shape s with h2 | ⟨b, hb, hbw⟩
    · rw [h2] at h
      exact List.noConfusion h
    · have h3 : trimRightWS (trimStr s) = trimStr s := by
        unfold trimRightWS
        have hrev : (trimStr s).reverse.head? = some b := by
          rw [List.head?_reverse]
          exact hb
        cases hr : (trimStr s).reverse with
        | nil => rw [hr] at hrev; exact Option.noConfusion hrev
        | cons x y =>
          rw [hr] at hrev
          have hx : x = b := by injection hrev
          rw [dropWhile_eq_self_of_head (hx ▸ hbw), ← hr, List.reverse_reverse]
      show trimRightWS (trimLeftWS (trimStr s)) = trimStr s
      rw [h1, h3]

theorem mem_trimStr {x : Char} {s : Str} (h : x ∈ trimStr s) : x ∈ s := by
  unfold trimStr trimRightWS trimLeftWS at h
  rw [List.mem_reverse] at h
  have h2 : x ∈ (s.dropWhile isWS).reverse :=
    (List.dropWhile_sublist _).mem h
  rw [List.mem_reverse] at h2
  exact (List.dropWhile_sublist _).mem h2

/-! ## Splitting a joined line list -/

theorem splitCh_prepend {c : Char} : ∀ {l : Str}, c ∉ l → ∀ m : Str,
    splitCh c (l ++ m) = (l ++ (splitCh c m).headD []) :: (splitCh c m).tail := by
  intro l
  induction l with
  | nil =>
    intro _ m
    simp only [List.nil_append]
    cases h : splitCh c m with
    | nil => exact absurd h (splitCh_ne_nil c m)
    | cons r rs => rfl
  | cons a l ih =>
    intro hc m
    have hac : a ≠ c := fun e => hc (e ▸ List.mem_cons_self a l)
    have hcl : c ∉ l := fun hm => hc (List.mem_cons_of_mem a hm)
    rw [List.cons_append, splitCh_nsep _ hac, ih hcl m]
    rfl

theorem splitCh_joinWith (c : Char) : ∀ L : List Str, L ≠ [] → (∀ l ∈ L, c ∉ l) →
    splitCh c (joinWith [c] L) = L := by
  intro L
  induction L with
  | nil => intro h _; exact absurd rfl h
  | cons l ls ih =>
    intro _ hc
    cases ls with
    | nil =>
      show splitCh c l = [l]
      have h := splitCh_prepend (hc l (by simp)) []
      rw [List.append_nil] at h
      rw [h]
      simp [splitCh]
    | cons l2 ls2 =>
      show splitCh c (l ++ [c] ++ joinWith [c] (l2 :: ls2)) = l :: l2 :: ls2
      rw [List.append_assoc, List.singleton_append,
        splitCh_prepend (hc l (by simp)) (c :: joinWith [c] (l2 :: ls2)),
        splitCh_sep, ih (by simp) (fun x hx => hc x (List.mem_cons_of_mem l hx))]
      simp

theorem joinWith_head? (c : Char) (l : Str) (ls : List Str) (hl : l ≠ []) :
    (joinWith [c] (l :: ls)).head? = l.head? := by
  cases ls with
  | nil => rfl
  | cons l2 ls2 =>
    show (l ++ [c] ++ joinWith [c] (l2 :: ls2)).head? = l.head?
    rw [List.append_assoc]
    cases l with
    | nil => exact absurd rfl hl
    | cons a t => rfl

theorem joinWith_getLast? (c : Char) : ∀ (L : List Str) (l : Str), L.getLast? = some l →
    l ≠ [] → (joinWith [c] L).getLast? = l.getLast? := by
  intro L
  induction L with
  | nil => intro l h _; exact Option.noConfusion h
  | cons l0 ls ih =>
    intro l h hne
    cases ls with
    | nil =>
      have : l0 = l := by
        have : (l0 :: ([] : List Str)).getLast? = some l0 := rfl
        rw [this] at h
        injection h
      rw [← this] at hne ⊢
      rfl
    | cons l1 ls2 =>
      have hlast : (l1 :: ls2).getLast? = some l := by
        rw [← List.getLast?_cons_cons (a := l0)]
        exact h
      have hioin := ih l hlast hne
      have hjne : joinWith [c] (l1 :: ls2) ≠ [] := by
        intro he
        rw [he] at hioin
        have : l.getLast? = none := hioin.symm
        cases l with
        | nil => exact hne rfl
        | cons a t => simp [List.getLast?] at this
      show (l0 ++ [c] ++ joinWith [c] (l1 :: ls2)).getLast? = l.getLast?
      rw [List.append_assoc, List.getLast?_append_of_ne_nil l0 (by simp),
        List.singleton_append]
      cases hj : joinWith [c] (l1 :: ls2) with
      | nil => exact absurd hj hjne
      | cons j js =>
        rw [hj] at hioin
        rw [List.getLast?_cons_cons]
        exact hioin

theorem trimStr_fixed_of_ends {s : Str} (hh : ∃ a, s.head? = some a ∧ isWS a = false)
    (hl : ∃ b, s.getLast? = some b ∧ isWS b = false) : trimStr s = s := by
  obtain ⟨a, ha, haw⟩ := hh
  obtain ⟨b, hb, hbw⟩ := hl
  cases s with
  | nil => rfl
  | cons x t =>
    have hax : x = a := by injection ha
    have h1 : trimLeftWS (x :: t) = x :: t := dropWhile_eq_self_of_head (by rw [hax]; exact haw)
    show trimRightWS (trimLeftWS (x :: t)) = x :: t
    rw [h1]
    unfold trimRightWS
    have hrev : (x :: t).reverse.head? = some b := by
      rw [List.head?_reverse]
      exact hb
    cases hr : (x :: t).reverse with
    | nil => simp at hr
    | cons y z =>
      rw [hr] at hrev
      have hyb : y = b := by injection hrev
      rw [dropWhile_eq_self_of_head (by rw [hyb]; exact hbw), ← hr, List.reverse_reverse]

theorem trimmed_head_char {l : Str} (hfix : trimStr l = l) (hne : l ≠ []) :
    ∃ a, l.head? = some a ∧ isWS a = false := by
  rcases trimStr_head_shape l with h | ⟨a, t, h, ha⟩
  · rw [hfix] at h
    exact absurd h hne
  · rw [hfix] at h
    exact ⟨a, by rw [h]; rfl, ha⟩

theorem trimmed_last_char {l : Str} (hfix : trimStr l = l) (hne : l ≠ []) :
    ∃ b, l.getLast? = some b ∧ isWS b = false := by
  rcases trimStr_getLast_shape l with h | ⟨b, hb, hbw⟩
  · rw [hfix] at h
    exact absurd h hne
  · rw [hfix] at hb
    exact ⟨b, hb, hbw⟩

/-! ## Characterizing the kept lines of the content cleaner -/

theorem keepLine_iff (A : List Str) (i : Nat) :
    keepLine A i = true ↔
      A.getD i [] ≠ [] ∨
        (A.getD i [] = [] ∧ 0 < i ∧ i < A.length - 1 ∧
          A.getD (i - 1) [] ≠ [] ∧ A.getD (i + 1) [] ≠ [] ∧
          isSpecialLine (A.getD (i - 1) []) = false ∧
          isSpecialLine (A.getD (i + 1) []) = false) := by
  unfold keepLine isSpecialLine
  by_cases h : A.getD i [] = []
  · rw [if_neg (by simpa using h)]
    by_cases hi : 0 < i ∧ i < A.length - 1
    · rw [if_pos hi]
      simp only [Bool.and_eq_true, Bool.not_eq_true', decide_eq_true_eq,
        Bool.or_eq_false_iff, and_assoc]
      tauto
    · rw [if_neg hi]
      simp only [Bool.false_eq_true, false_iff]
      rintro (hne | ⟨_, h0, h1, _⟩)
      · exact hne h
      · exact hi ⟨h0, h1⟩
  · rw [if_pos (by simpa using h)]
    exact ⟨fun _ => Or.inl h, fun _ => rfl⟩

theorem cleanLines_length_eq (A : List Str) :
    (cleanLines A).length =
      ((List.range A.length).filter (fun i => keepLine A i)).length :=
  List.length_map _ _

theorem cleanLines_getD (A : List Str) (k : Nat)
    (hk : k < ((List.range A.length).filter (fun i => keepLine A i)).length) :
    (cleanLines A).getD k [] =
      A.getD (((List.range A.length).filter (fun i => keepLine A i)).get ⟨k, hk⟩) [] := by
  unfold cleanLines
  rw [List.getD_eq_getElem?_getD, List.getElem?_map, List.getElem?_eq_getElem hk]
  rfl

theorem keptR_sorted (A : List Str) :
    ((List.range A.length).filter (fun i => keepLine A i)).Pairwise (· < ·) :=
  List.Pairwise.sublist (List.filter_sublist _) (List.sorted_lt_range A.length)

theorem sorted_get_mono {l : List Nat} (h : l.Pairwise (· < ·)) {i j : Fin l.length}
    (hij : i < j) : l.get i < l.get j :=
  List.pairwise_iff_get.mp h i j hij

theorem sorted_get_reflect {l : List Nat} (h : l.Pairwise (· < ·)) {i j : Fin l.length}
    (hij : l.get i < l.get j) : i < j := by
  rcases lt_trichotomy i j with hlt | heq | hgt
  · exact hlt
  · subst heq
    exact absurd hij (lt_irrefl _)
  · exact absurd (sorted_get_mono h hgt) (by omega)

theorem mem_keptR {A : List Str} {i : Nat} :
    i ∈ (List.range A.length).filter (fun i => keepLine A i) ↔
      i < A.length ∧ keepLine A i = true := by
  rw [List.mem_filter, List.mem_range]

theorem cleanLines_blank_ctx (A : List Str) (k : Nat)
    (hk : k < (cleanLines A).length)
    (hblank : (cleanLines A).getD k [] = []) :
    0 < k ∧ k + 1 < (cleanLines A).length ∧
      (cleanLines A).getD (k - 1) [] ≠ [] ∧ (cleanLines A).getD (k + 1) [] ≠ [] ∧
      isSpecialLine ((cleanLines A).getD (k - 1) []) = false ∧
      isSpecialLine ((cleanLines A).getD (k + 1) []) = false := by
  have hkR : k < ((List.range A.length).filter (fun i => keepLine A i)).length := by
    rwa [cleanLines_length_eq] at hk
  set R := (List.range A.length).filter (fun i => keepLine A i) with hR
  set i := R.get ⟨k, hkR⟩ with hi
  have hgetk : (cleanLines A).getD k [] = A.getD i [] := cleanLines_getD A k hkR
  have hAi : A.getD i [] = [] := by rw [← hgetk]; exact hblank
  have hiR : i ∈ R := List.get_mem R k hkR
  have hikeep : keepLine A i = true := (mem_keptR.mp hiR).2
  rcases (keepLine_iff A i).mp hikeep with hne | ⟨_, hi0, hiN, hprev, hnext, hps, hns⟩
  · exact absurd hAi hne
  have hiLen : i < A.length := (mem_keptR.mp hiR).1
  have hprevKeep : (i - 1) ∈ R :=
    mem_keptR.mpr ⟨by omega, (keepLine_iff A (i - 1)).mpr (Or.inl hprev)⟩
  have hnextKeep : (i + 1) ∈ R :=
    mem_keptR.mpr ⟨by omega, (keepLine_iff A (i + 1)).mpr (Or.inl hnext)⟩
  obtain ⟨m1, hm1⟩ := List.mem_iff_get.mp hprevKeep
  obtain ⟨m2, hm2⟩ := List.mem_iff_get.mp hnextKeep
  have hsort := keptR_sorted A
  have hm1k : (m1 : Nat) < k := by
    have : m1 < (⟨k, hkR⟩ : Fin R.length) := by
      apply sorted_get_reflect hsort
      rw [hm1, ← hi]
      omega
    exact this
  have h0k : 0 < k := by omega
  have hm2k : k < (m2 : Nat) := by
    have : (⟨k, hkR⟩ : Fin R.length) < m2 := by
      apply sorted_get_reflect hsort
      rw [hm2, ← hi]
      omega
    exact this
  have hk1 : k + 1 < R.length := by
    have := m2.isLt
    omega
  have hk1R : k - 1 < R.length := by omega
  have hgk1 : R.get ⟨k - 1, hk1R⟩ = i - 1 := by
    have hub : R.get ⟨k - 1, hk1R⟩ < i := by
      have := sorted_get_mono hsort
        (show (⟨k - 1, hk1R⟩ : Fin R.length) < ⟨k, hkR⟩ from by
          simp only [Fin.mk_lt_mk]; omega)
      rwa [← hi] at this
    have hlb : i - 1 ≤ R.get ⟨k - 1, hk1R⟩ := by
      by_cases hm1e : (m1 : Nat) = k - 1
      · have : m1 = (⟨k - 1, hk1R⟩ : Fin R.length) := Fin.ext hm1e
        rw [← this, hm1]
      · have hm1lt : m1 < (⟨k - 1, hk1R⟩ : Fin R.length) := by
          rw [Fin.lt_def]
          show (m1 : Nat) < k - 1
          omega
        have := sorted_get_mono hsort hm1lt
        rw [hm1] at this
        exact Nat.le_of_lt this
    omega
  have hgk2 : R.get ⟨k + 1, hk1⟩ = i + 1 := by
    have hlb : i < R.get ⟨k + 1, hk1⟩ := by
      have := sorted_get_mono hsort
        (show (⟨k, hkR⟩ : Fin R.length) < ⟨k + 1, hk1⟩ from by
          simp only [Fin.mk_lt_mk]; omega)
      rwa [← hi] at this
    have hub : R.get ⟨k + 1, hk1⟩ ≤ i + 1 := by
      by_cases hm2e : (m2 : Nat) = k + 1
      · have : m2 = (⟨k + 1, hk1⟩ : Fin R.length) := Fin.ext hm2e
        rw [← this, hm2]
      · have hm2lt : (⟨k + 1, hk1⟩ : Fin R.length) < m2 := by
          rw [Fin.lt_def]
          show k + 1 < (m2 : Nat)
          omega
        have := sorted_get_mono hsort hm2lt
        rw [hm2] at this
        exact Nat.le_of_lt this
    omega
  have e1 : (cleanLines A).getD (k - 1) [] = A.getD (i - 1) [] := by
    rw [cleanLines_getD A (k - 1) hk1R, hgk1]
  have e2 : (cleanLines A).getD (k + 1) [] = A.getD (i + 1) [] := by
    rw [cleanLines_getD A (k + 1) hk1, hgk2]
  refine ⟨h0k, by rwa [cleanLines_length_eq], ?_, ?_, ?_, ?_⟩
  · rw [e1]; exact hprev
  · rw [e2]; exact hnext
  · rw [e1]; exact hps
  · rw [e2]; exact hns

theorem mem_of_getLast?_eq {α : Type} {l : List α} {a : α} (h : l.getLast? = some a) :
    a ∈ l := by
  have hx : a ∈ l.getLast? := Option.mem_def.mpr h
  obtain ⟨hne, he⟩ := List.mem_getLast?_eq_getLast hx
  rw [he]
  exact List.getLast_mem hne

theorem getD_range_map {α : Type} (l : List α) (d : α) :
    (List.range l.length).map (fun i => l.getD i d) = l := by
  induction l with
  | nil => rfl
  | cons a t ih =>
    show (List.range (t.length + 1)).map (fun i => (a :: t).getD i d) = a :: t
    rw [List.range_succ_eq_map]
    simp only [List.map_cons, List.map_map]
    have hcomp : ((fun i => (a :: t).getD i d) ∘ Nat.succ) = (fun i => t.getD i d) := by
      funext i
      rfl
    rw [hcomp, ih]
    rfl

theorem map_eq_self {α : Type} {l : List α} {f : α → α} (h : ∀ x ∈ l, f x = x) :
    l.map f = l := by
  induction l with
  | nil => rfl
  | cons a t ih =>
    rw [List.map_cons, h a (by simp), ih (fun x hx => h x (List.mem_cons_of_mem a hx))]

theorem cleanLines_all_keep (L : List Str) (h : ∀ k, k < L.length → keepLine L k = true) :
    cleanLines L = L := by
  unfold cleanLines
  rw [List.filter_eq_self.mpr (fun i hi => h i (List.mem_range.mp hi)), getD_range_map]

theorem mem_cleanLines {A : List Str} {l : Str} (h : l ∈ cleanLines A) : l ∈ A := by
  unfold cleanLines at h
  rw [List.mem_map] at h
  obtain ⟨i, hiR, hil⟩ := h
  have hlt := (mem_keptR.mp hiR).1
  rw [← hil, List.getD_eq_getElem?_getD, List.getElem?_eq_getElem hlt]
  simp only [Option.getD_some]
  exact List.getElem_mem hlt

theorem cleanContent_eq (x : Str) :
    cleanContent x = joinWith (str "\n") (cleanLines (linesOf x)) := rfl

theorem linesOf_trimmed {x : Str} {l : Str} (h : l ∈ linesOf x) :
    trimStr l = l ∧ '\n' ∉ l := by
  unfold linesOf at h
  rw [List.mem_map] at h
  obtain ⟨raw, hraw, hl⟩ := h
  constructor
  · rw [← hl]
    exact trimStr_idem raw
  · rw [← hl]
    intro hmem
    exact not_mem_splitCh '\n' (trimStr x) raw hraw (mem_trimStr hmem)

theorem cleanLines_head_ne (A : List Str) (hne : cleanLines A ≠ []) :
    (cleanLines A).getD 0 [] ≠ [] := by
  intro hbl
  have hlen : 0 < (cleanLines A).length := List.length_pos.mpr hne
  exact absurd (cleanLines_blank_ctx A 0 hlen hbl).1 (lt_irrefl 0)

theorem cleanLines_last_ne (A : List Str) (hne : cleanLines A ≠ []) :
    (cleanLines A).getD ((cleanLines A).length - 1) [] ≠ [] := by
  intro hbl
  have hlen0 : 0 < (cleanLines A).length := List.length_pos.mpr hne
  have hlen : (cleanLines A).length - 1 < (cleanLines A).length := by omega
  have := (cleanLines_blank_ctx A _ hlen hbl).2.1
  omega

theorem getLast?_eq_getD {α : Type} (l : List α) (d : α) (h : l ≠ []) :
    l.getLast? = some (l.getD (l.length - 1) d) := by
  have hlt : l.length - 1 < l.length := by
    have := List.length_pos.mpr h
    omega
  rw [List.getLast?_eq_getElem? l, List.getD_eq_getElem?_getD,
    List.getElem?_eq_getElem hlt]
  rfl

theorem cleanContent_idem (x : Str) : cleanContent (cleanContent x) = cleanContent x := by
  by_cases hLnil : cleanLines (linesOf x) = []
  · have hx : cleanContent x = [] := by
      rw [cleanContent_eq, hLnil]
      rfl
    rw [hx]
    rfl
  · obtain ⟨l0, ls, hLc⟩ : ∃ l0 ls, cleanLines (linesOf x) = l0 :: ls := by
      cases h : cleanLines (linesOf x) with
      | nil => exact absurd h hLnil
      | cons a t => exact ⟨a, t, rfl⟩
    have hmemtrim : ∀ l ∈ cleanLines (linesOf x), trimStr l = l ∧ '\n' ∉ l :=
      fun l hl => linesOf_trimmed (mem_cleanLines hl)
    have hl0 : l0 ≠ [] := by
      have h0 := cleanLines_head_ne (linesOf x) hLnil
      rw [hLc] at h0
      exact h0
    have hll := cleanLines_last_ne (linesOf x) hLnil
    have hlleq : (cleanLines (linesOf x)).getLast? =
        some ((cleanLines (linesOf x)).getD ((cleanLines (linesOf x)).length - 1) []) :=
      getLast?_eq_getD _ [] hLnil
    have hllmem : (cleanLines (linesOf x)).getD ((cleanLines (linesOf x)).length - 1) [] ∈
        cleanLines (linesOf x) := mem_of_getLast?_eq hlleq
    have htrim : trimStr (joinWith (str "\n") (cleanLines (linesOf x))) =
        joinWith (str "\n") (cleanLines (linesOf x)) := by
      apply trimStr_fixed_of_ends
      · obtain ⟨a, ha, haw⟩ := trimmed_head_char
          (hmemtrim l0 (by rw [hLc]; exact List.mem_cons_self l0 ls)).1 hl0
        refine ⟨a, ?_, haw⟩
        rw [hLc, show str "\n" = ['\n'] from rfl, joinWith_head? '\n' l0 ls hl0]
        exact ha
      · obtain ⟨b, hb, hbw⟩ := trimmed_last_char (hmemtrim _ hllmem).1 hll
        refine ⟨b, ?_, hbw⟩
        rw [show str "\n" = ['\n'] from rfl, joinWith_getLast? '\n' _ _ hlleq hll]
        exact hb
    have hsplit : splitCh '\n' (joinWith (str "\n") (cleanLines (linesOf x))) =
        cleanLines (linesOf x) := by
      rw [show str "\n" = ['\n'] from rfl]
      exact splitCh_joinWith '\n' _ hLnil (fun l hl => (hmemtrim l hl).2)
    have hmapfix : (cleanLines (linesOf x)).map trimStr = cleanLines (linesOf x) :=
      map_eq_self (fun l hl => (hmemtrim l hl).1)
    have hkeep : ∀ k, k < (cleanLines (linesOf x)).length →
        keepLine (cleanLines (linesOf x)) k = true := by
      intro k hk
      by_cases hb : (cleanLines (linesOf x)).getD k [] = []
      · obtain ⟨c1, c2, c3, c4, c5, c6⟩ := cleanLines_blank_ctx (linesOf x) k hk hb
        exact (keepLine_iff _ k).mpr (Or.inr ⟨hb, c1, by omega, c3, c4, c5, c6⟩)
      · exact (keepLine_iff _ k).mpr (Or.inl hb)
    have hlines : linesOf (joinWith (str "\n") (cleanLines (linesOf x))) =
        cleanLines (linesOf x) := by
      show (splitCh '\n' (trimStr (joinWith (str "\n") (cleanLines (linesOf x))))).map trimStr =
        cleanLines (linesOf x)
      rw [htrim, hsplit, hmapfix]
    rw [cleanContent_eq x, cleanContent_eq (joinWith (str "\n") (cleanLines (linesOf x))),
      hlines, cleanLines_all_keep _ hkeep]

theorem noBadPairs_of_getD (L : List Str)
    (h : ∀ k, k + 1 < L.length → badPair (L.getD k []) (L.getD (k + 1) []) = false) :
    noBadPairs L = true := by
  induction L with
  | nil => rfl
  | cons a t ih =>
    cases t with
    | nil => rfl
    | cons b r =>
      show (!badPair a b && noBadPairs (b :: r)) = true
      rw [Bool.and_eq_true, Bool.not_eq_true']
      constructor
      · exact h 0 (by simp)
      · apply ih
        intro k hk
        exact h (k + 1) (by simpa using Nat.succ_lt_succ hk)

/-- C3: the content cleaner is idempotent, and its output never contains
two consecutive blank lines nor a blank line immediately adjacent to a
line beginning with `#`, `*`, or `-`. -/
theorem c3_cleaner_idempotent (x : Str) :
    cleanContent (cleanContent x) = cleanContent x ∧
      noBadPairs (splitCh '\n' (cleanContent x)) = true := by
  refine ⟨cleanContent_idem x, ?_⟩
  by_cases hLnil : cleanLines (linesOf x) = []
  · have hx : cleanContent x = [] := by
      rw [cleanContent_eq, hLnil]
      rfl
    rw [hx]
    rfl
  · have hsplit : splitCh '\n' (cleanContent x) = cleanLines (linesOf x) := by
      rw [cleanContent_eq, show str "\n" = ['\n'] from rfl]
      exact splitCh_joinWith '\n' _ hLnil
        (fun l hl => (linesOf_trimmed (mem_cleanLines hl)).2)
    rw [hsplit]
    apply noBadPairs_of_getD
    intro k hk
    unfold badPair
    by_cases hbk : (cleanLines (linesOf x)).getD k [] = []
    · obtain ⟨_, _, _, hnext, _, hns⟩ :=
        cleanLines_blank_ctx (linesOf x) k (by omega) hbk
      simp only [List.getD_eq_getElem?_getD] at hbk hnext hns
      simp [hbk, hnext, hns]
    · by_cases hbk1 : (cleanLines (linesOf x)).getD (k + 1) [] = []
      · obtain ⟨_, _, hprev, _, hps, _⟩ :=
          cleanLines_blank_ctx (linesOf x) (k + 1) hk hbk1
        simp only [Nat.add_sub_cancel] at hps hprev
        simp only [List.getD_eq_getElem?_getD] at hbk hbk1 hps
        simp [hbk, hbk1, hps]
      · simp only [List.getD_eq_getElem?_getD] at hbk hbk1
        simp [hbk, hbk1]

/-! ## C4: how blank-line runs collapse -/

theorem bool_eq_of_iff {a b : Bool} (h : (a = true) ↔ (b = true)) : a = b := by
  cases a <;> cases b <;> simp_all

theorem keepLine_true_of_ne {A : List Str} {i : Nat} (h : A.getD i [] ≠ []) :
    keepLine A i = true :=
  (keepLine_iff A i).mpr (Or.inl h)

/-- C4 (amended): the cleaned output decomposes around a run of blank
lines lying between two non-blank lines: a single blank line survives
exactly when the run has length one and neither flanking line begins
with `#`, `*`, or `-`; any longer run, and any run with a heading or
list-item flank, is removed entirely — so a run of two or more blank
lines between plain paragraph lines yields no blank line rather than
one. -/
theorem c4_run_collapse (u : List Str) (a : Str) (blanks : List Str) (b : Str) (v : List Str)
    (ha : a ≠ []) (hb : b ≠ []) (hbl : ∀ l ∈ blanks, l = []) :
    cleanLines (u ++ a :: (blanks ++ b :: v)) =
      cleanLines (u ++ [a]) ++
        (if blanks.length = 1 ∧ isSpecialLine a = false ∧ isSpecialLine b = false
          then [([] : Str)] else []) ++
        cleanLines (b :: v) := by
  have hXY : u ++ a :: (blanks ++ b :: v) = (u ++ [a]) ++ (blanks ++ b :: v) := by
    simp
  have hXW : u ++ a :: (blanks ++ b :: v) = (u ++ a :: blanks) ++ (b :: v) := by
    simp
  have hWlen : (u ++ a :: blanks).length = u.length + 1 + blanks.length := by
    simp
    omega
  have hYlen : (u ++ [a]).length = u.length + 1 := by simp
  have hlen : (u ++ a :: (blanks ++ b :: v)).length =
      u.length + 1 + blanks.length + (v.length + 1) := by
    simp
    omega
  have gA : ∀ i, i < u.length + 1 →
      (u ++ a :: (blanks ++ b :: v)).getD i [] = (u ++ [a]).getD i [] := by
    intro i hi
    rw [hXY]
    exact List.getD_append _ _ [] i (by rw [hYlen]; omega)
  have ga : (u ++ a :: (blanks ++ b :: v)).getD u.length [] = a := by
    rw [hXY, List.getD_append _ _ [] u.length (by rw [hYlen]; omega),
      List.getD_append_right _ _ [] u.length (by omega)]
    simp
  have gblank : ∀ j, j < blanks.length → blanks.getD j [] = [] := by
    intro j hj
    rw [List.getD_eq_getElem?_getD, List.getElem?_eq_getElem hj]
    simp only [Option.getD_some]
    exact hbl _ (List.getElem_mem hj)
  have gMid : ∀ j, j < blanks.length →
      (u ++ a :: (blanks ++ b :: v)).getD (u.length + 1 + j) [] = [] := by
    intro j hj
    rw [hXY, List.getD_append_right _ _ [] (u.length + 1 + j) (by rw [hYlen]; omega), hYlen]
    have hidx : u.length + 1 + j - (u.length + 1) = j := by omega
    rw [hidx, List.getD_append _ _ [] j hj]
    exact gblank j hj
  have gZ : ∀ j, (u ++ a :: (blanks ++ b :: v)).getD (u.length + 1 + blanks.length + j) [] =
      (b :: v).getD j [] := by
    intro j
    rw [hXW, List.getD_append_right _ _ [] _ (by rw [hWlen]; omega), hWlen]
    have hidx : u.length + 1 + blanks.length + j - (u.length + 1 + blanks.length) = j := by
      omega
    rw [hidx]
  have kLeft : ∀ i, i < u.length + 1 →
      keepLine (u ++ a :: (blanks ++ b :: v)) i = keepLine (u ++ [a]) i := by
    intro i hi
    by_cases hiu : i = u.length
    · subst hiu
      rw [keepLine_true_of_ne (by rw [ga]; exact ha),
        keepLine_true_of_ne (A := u ++ [a])
          (by rw [← gA u.length (by omega), ga]; exact ha)]
    · have hi2 : i < u.length := by omega
      apply bool_eq_of_iff
      rw [keepLine_iff, keepLine_iff, gA i hi, gA (i - 1) (by omega), gA (i + 1) (by omega),
        hlen, hYlen]
      constructor
      · rintro (h | ⟨p1, p2, _, p4⟩)
        · exact Or.inl h
        · exact Or.inr ⟨p1, p2, by omega, p4⟩
      · rintro (h | ⟨p1, p2, _, p4⟩)
        · exact Or.inl h
        · exact Or.inr ⟨p1, p2, by omega, p4⟩
  have kRight : ∀ j, j < v.length + 1 →
      keepLine (u ++ a :: (blanks ++ b :: v)) (u.length + 1 + blanks.length + j) =
        keepLine (b :: v) j := by
    intro j hj
    by_cases hj0 : j = 0
    · subst hj0
      rw [keepLine_true_of_ne (by rw [gZ 0]; exact hb),
        keepLine_true_of_ne (A := b :: v) (i := 0) hb]
    · have hj1 : 1 ≤ j := by omega
      apply bool_eq_of_iff
      rw [keepLine_iff, keepLine_iff, gZ j,
        show u.length + 1 + blanks.length + j - 1 = u.length + 1 + blanks.length + (j - 1)
          from by omega,
        gZ (j - 1),
        show u.length + 1 + blanks.length + j + 1 = u.length + 1 + blanks.length + (j + 1)
          from by omega,
        gZ (j + 1), hlen]
      have hlen2 : (b :: v).length = v.length + 1 := by simp
      rw [hlen2]
      constructor
      · rintro (h | ⟨p1, p2, p3, p4⟩)
        · exact Or.inl h
        · exact Or.inr ⟨p1, by omega, by omega, p4⟩
      · rintro (h | ⟨p1, p2, p3, p4⟩)
        · exact Or.inl h
        · exact Or.inr ⟨p1, by omega, by omega, p4⟩
  have kMid : ∀ j, j < blanks.length →
      (keepLine (u ++ a :: (blanks ++ b :: v)) (u.length + 1 + j) = true ↔
        (blanks.length = 1 ∧ j = 0 ∧ isSpecialLine a = false ∧ isSpecialLine b = false)) := by
    intro j hj
    rw [keepLine_iff]
    have e0 := gMid j hj
    have ea : (u ++ a :: (blanks ++ b :: v)).getD (u.length + 1 + 0 - 1) [] = a := by
      simpa using ga
    constructor
    · rintro (h | ⟨_, _, _, hprev, hnext, hps, hns⟩)
      · exact absurd e0 h
      · by_cases hjz : j = 0
        · subst hjz
          by_cases hn2 : blanks.length = 1
          · have en : (u ++ a :: (blanks ++ b :: v)).getD (u.length + 1 + 0 + 1) [] = b := by
              have := gZ 0
              rw [hn2] at this
              simpa using this
            rw [ea] at hps
            rw [en] at hns
            exact ⟨hn2, rfl, hps, hns⟩
          · have hnn : (u ++ a :: (blanks ++ b :: v)).getD (u.length + 1 + 0 + 1) [] = [] := by
              have := gMid 1 (by omega)
              simpa using this
            exact absurd hnn hnext
        · have hpp : (u ++ a :: (blanks ++ b :: v)).getD (u.length + 1 + j - 1) [] = [] := by
            have := gMid (j - 1) (by omega)
            have hidx : u.length + 1 + (j - 1) = u.length + 1 + j - 1 := by omega
            rwa [hidx] at this
          exact absurd hpp hprev
    · rintro ⟨hn2, hjz, hpa, hpb⟩
      subst hjz
      have en : (u ++ a :: (blanks ++ b :: v)).getD (u.length + 1 + 0 + 1) [] = b := by
        have := gZ 0
        rw [hn2] at this
        simpa using this
      refine Or.inr ⟨by simpa using e0, by omega, by rw [hlen]; omega, ?_, ?_, ?_, ?_⟩
      · rw [ea]
        exact ha
      · rw [en]
        exact hb
      · rw [ea]
        exact hpa
      · rw [en]
        exact hpb
  have hP2 : (((List.range blanks.length).map (fun i => u.length + 1 + i)).filter
        (fun i => keepLine (u ++ a :: (blanks ++ b :: v)) i)).map
        (fun i => (u ++ a :: (blanks ++ b :: v)).getD i []) =
      (if blanks.length = 1 ∧ isSpecialLine a = false ∧ isSpecialLine b = false
        then [([] : Str)] else []) := by
    rw [List.filter_map, List.map_map]
    by_cases hcond : blanks.length = 1 ∧ isSpecialLine a = false ∧ isSpecialLine b = false
    · obtain ⟨hn2, hpa, hpb⟩ := hcond
      rw [if_pos ⟨hn2, hpa, hpb⟩, hn2]
      have q0 : keepLine (u ++ a :: (blanks ++ b :: v)) (u.length + 1 + 0) = true :=
        (kMid 0 (by omega)).mpr ⟨hn2, rfl, hpa, hpb⟩
      rw [show List.range 1 = [0] from by decide]
      have hfil : ([0].filter
          ((fun i => keepLine (u ++ a :: (blanks ++ b :: v)) i) ∘ fun i => u.length + 1 + i)) =
          [0] := by
        rw [List.filter_eq_self]
        intro x hx
        rw [List.mem_singleton] at hx
        subst hx
        simpa using q0
      rw [hfil]
      simp only [List.map_cons, List.map_nil, Function.comp]
      rw [show (u ++ a :: (blanks ++ b :: v)).getD (u.length + 1 + 0) [] = [] from
        gMid 0 (by omega)]
    · rw [if_neg hcond]
      have hfil : ((List.range blanks.length).filter
          ((fun i => keepLine (u ++ a :: (blanks ++ b :: v)) i) ∘ fun i => u.length + 1 + i)) =
          [] := by
        rw [List.filter_eq_nil]
        intro j hjr
        rw [List.mem_range] at hjr
        intro hkeep
        have := (kMid j hjr).mp (by simpa using hkeep)
        exact hcond ⟨this.1, this.2.2.1, this.2.2.2⟩
      rw [hfil]
      rfl
  show ((List.range (u ++ a :: (blanks ++ b :: v)).length).filter
      (fun i => keepLine (u ++ a :: (blanks ++ b :: v)) i)).map
      (fun i => (u ++ a :: (blanks ++ b :: v)).getD i []) = _
  rw [hlen, List.range_add (u.length + 1 + blanks.length) (v.length + 1),
    List.range_add (u.length + 1) blanks.length,
    List.filter_append, List.filter_append, List.map_append, List.map_append]
  refine congrArg₂ (· ++ ·) (congrArg₂ (· ++ ·) ?_ ?_) ?_
  · show ((List.range (u.length + 1)).filter
        (fun i => keepLine (u ++ a :: (blanks ++ b :: v)) i)).map
        (fun i => (u ++ a :: (blanks ++ b :: v)).getD i []) = cleanLines (u ++ [a])
    unfold cleanLines
    rw [hYlen]
    rw [List.filter_congr (fun i hi => kLeft i (List.mem_range.mp hi))]
    apply List.map_congr_left
    intro i hi
    rw [List.mem_filter, List.mem_range] at hi
    exact gA i hi.1
  · exact hP2
  · show (((List.range (v.length + 1)).map
        (fun i => u.length + 1 + blanks.length + i)).filter
        (fun i => keepLine (u ++ a :: (blanks ++ b :: v)) i)).map
        (fun i => (u ++ a :: (blanks ++ b :: v)).getD i []) = cleanLines (b :: v)
    rw [List.filter_map, List.map_map]
    unfold cleanLines
    have hlen2 : (b :: v).length = v.length + 1 := by simp
    rw [hlen2]
    rw [List.filter_congr (fun j hj => by
      simpa using kRight j (List.mem_range.mp hj))]
    apply List.map_congr_left
    intro j hj
    rw [List.mem_filter, List.mem_range] at hj
    simpa using gZ j

/-- Witness for the amended C4: a run of two blank lines between two
plain lines at a concrete input. -/
theorem c4_witness :
    cleanLines ([] ++ str "x" :: ([[], []] ++ str "y" :: [])) =
      cleanLines ([] ++ [str "x"]) ++
        (if ([([] : Str), []] : List Str).length = 1 ∧ isSpecialLine (str "x") = false ∧
            isSpecialLine (str "y") = false then [([] : Str)] else []) ++
        cleanLines (str "y" :: []) :=
  c4_run_collapse [] (str "x") [[], []] (str "y") [] (by decide) (by decide) (by decide)

/-! ## C6: idempotence analysis of the normalizer -/

theorem not_hash_stripFragment (s : Str) : '#' ∉ stripFragment s := by
  intro h
  have := List.mem_takeWhile_imp h
  simp at this

theorem stripFragment_idem (s : Str) : stripFragment (stripFragment s) = stripFragment s :=
  stripFragment_eq_self (not_hash_stripFragment s)

theorem normalizeUrl_strip (res : Resolver) (ctx : Ctx) (url : Str) :
    normalizeUrl res ctx (stripFragment url) = normalizeUrl res ctx url := by
  unfold normalizeUrl
  rw [stripFragment_idem]

theorem startsWithL_append (p r : Str) : startsWithL p (p ++ r) = true := by
  induction p with
  | nil => simp [startsWithL]
  | cons a t ih => simp [startsWithL, ih]

theorem startsWithL_iff_append {p s : Str} : startsWithL p s = true ↔ ∃ r, s = p ++ r := by
  constructor
  · intro h
    induction p generalizing s with
    | nil => exact ⟨s, rfl⟩
    | cons a t ih =>
      cases s with
      | nil => simp [startsWithL] at h
      | cons b u =>
        rw [show startsWithL (a :: t) (b :: u) = (decide (a = b) && startsWithL t u)
          from rfl, Bool.and_eq_true, decide_eq_true_eq] at h
        obtain ⟨r, hr⟩ := ih h.2
        exact ⟨r, by rw [List.cons_append, ← hr, h.1]⟩
  · rintro ⟨r, rfl⟩
    exact startsWithL_append p r

theorem takeWhile_append_all {q : Char → Bool} {l : Str} (h : ∀ c ∈ l, q c = true)
    (m : Str) : (l ++ m).takeWhile q = l ++ m.takeWhile q := by
  induction l with
  | nil => rfl
  | cons a t ih =>
    rw [List.cons_append, List.takeWhile_cons, if_pos (h a (by simp)),
      ih (fun c hc => h c (List.mem_cons_of_mem a hc))]
    rfl

theorem dropWhile_append_all {q : Char → Bool} {l : Str} (h : ∀ c ∈ l, q c = true)
    (m : Str) : (l ++ m).dropWhile q = m.dropWhile q := by
  induction l with
  | nil => rfl
  | cons a t ih =>
    rw [List.cons_append, List.dropWhile_cons, if_pos (h a (by simp)),
      ih (fun c hc => h c (List.mem_cons_of_mem a hc))]

theorem takeWhile_eq_self_all {q : Char → Bool} {l : Str} (h : ∀ c ∈ l, q c = true) :
    l.takeWhile q = l := by
  induction l with
  | nil => rfl
  | cons a t ih =>
    rw [List.takeWhile_cons, if_pos (h a (by simp)),
      ih (fun c hc => h c (List.mem_cons_of_mem a hc))]

theorem dropWhile_eq_nil_all {q : Char → Bool} {l : Str} (h : ∀ c ∈ l, q c = true) :
    l.dropWhile q = [] := by
  induction l with
  | nil => rfl
  | cons a t ih =>
    rw [List.dropWhile_cons, if_pos (h a (by simp)),
      ih (fun c hc => h c (List.mem_cons_of_mem a hc))]

theorem http_not_of_https (r : Str) :
    startsWithL (str "http://") (str "https://" ++ r) = false := by
  rfl

theorem urlParse_abs (t pfull pp : Str)
    (hcase : (pfull = str "http://" ∧ pp = str "http:") ∨
      (pfull = str "https://" ∧ pp = str "https:"))
    (hhash : '#' ∉ pfull ++ t) :
    urlParse (pfull ++ t) =
      { protocol := pp
        slashes := true
        host := (t.takeWhile (fun c => c ≠ '?')).takeWhile (fun c => c ≠ '/')
        pathname := (t.takeWhile (fun c => c ≠ '?')).dropWhile (fun c => c ≠ '/')
        query := t.dropWhile (fun c => c ≠ '?')
        hash := [] } := by
  have hna : (pfull ++ t).takeWhile (fun c => decide (c ≠ '#')) = pfull ++ t :=
    takeWhile_eq_self_all (fun c hc => decide_eq_true (fun e => hhash (e ▸ hc)))
  have hhd : (pfull ++ t).dropWhile (fun c => decide (c ≠ '#')) = [] :=
    dropWhile_eq_nil_all (fun c hc => decide_eq_true (fun e => hhash (e ▸ hc)))
  simp only [urlParse]
  rcases hcase with ⟨hf, hp⟩ | ⟨hf, hp⟩ <;> subst hf <;> subst hp
  · have hq : ∀ c ∈ str "http://", (fun c => decide (c ≠ '?')) c = true := by decide
    rw [hna, hhd, takeWhile_append_all hq, dropWhile_append_all hq]
    rw [if_pos (startsWithL_append (str "http://") _)]
    have hdrop : (str "http://" ++ t.takeWhile (fun c => decide (c ≠ '?'))).drop 7 =
        t.takeWhile (fun c => decide (c ≠ '?')) := by
      rw [show (7 : Nat) = (str "http://").length from rfl]
      exact List.drop_left _ _
    rw [hdrop]
  · have hq : ∀ c ∈ str "https://", (fun c => decide (c ≠ '?')) c = true := by decide
    rw [hna, hhd, takeWhile_append_all hq, dropWhile_append_all hq]
    rw [if_neg (by rw [http_not_of_https]; exact Bool.false_ne_true)]
    rw [if_pos (startsWithL_append (str "https://") _)]
    have hdrop : (str "https://" ++ t.takeWhile (fun c => decide (c ≠ '?'))).drop 8 =
        t.takeWhile (fun c => decide (c ≠ '?')) := by
      rw [show (8 : Nat) = (str "https://").length from rfl]
      exact List.drop_left _ _
    rw [hdrop]

theorem splitCh_join_sep (c : Char) : ∀ (A : List Str), A ≠ [] → (∀ l ∈ A, c ∉ l) →
    ∀ t : Str, splitCh c (joinWith [c] A ++ c :: t) = A ++ splitCh c t := by
  intro A
  induction A with
  | nil => intro h _ _; exact absurd rfl h
  | cons l ls ih =>
    intro _ hc t
    cases ls with
    | nil =>
      show splitCh c (l ++ c :: t) = l :: splitCh c t
      rw [splitCh_prepend (hc l (by simp)) (c :: t), splitCh_sep]
      simp
    | cons l2 ls2 =>
      show splitCh c ((l ++ [c] ++ joinWith [c] (l2 :: ls2)) ++ c :: t) = _
      rw [List.append_assoc, List.append_assoc,
        splitCh_prepend (hc l (by simp)) ([c] ++ (joinWith [c] (l2 :: ls2) ++ c :: t)),
        List.singleton_append, splitCh_sep,
        ih (by simp) (fun x hx => hc x (List.mem_cons_of_mem l hx)) t]
      simp

theorem pathParts_elems (p : Str) : ∀ l ∈ pathParts p, l ≠ [] ∧ '/' ∉ l := by
  intro l hl
  unfold pathParts at hl
  rw [List.mem_filter] at hl
  refine ⟨by simpa using hl.2, not_mem_splitCh '/' p l hl.1⟩

theorem pathParts_join (A : List Str) (hA : ∀ l ∈ A, l ≠ [] ∧ '/' ∉ l) :
    pathParts (joinWith (str "/") A) = A := by
  cases hAe : A with
  | nil => rfl
  | cons a as =>
    unfold pathParts
    rw [show str "/" = ['/'] from rfl,
      splitCh_joinWith '/' (a :: as) (by simp) (fun l hl => (hA l (hAe ▸ hl)).2)]
    rw [List.filter_eq_self]
    intro x hx
    simpa using (hA x (hAe ▸ hx)).1

theorem pathParts_mk (A B : List Str) (hA : A ≠ []) (hAel : ∀ l ∈ A, l ≠ [] ∧ '/' ∉ l)
    (hBel : ∀ l ∈ B, l ≠ [] ∧ '/' ∉ l) :
    pathParts (str "/" ++ joinWith (str "/") A ++ str "/" ++ joinWith (str "/") B) =
      A ++ B := by
  have hform : str "/" ++ joinWith (str "/") A ++ str "/" ++ joinWith (str "/") B =
      '/' :: (joinWith ['/'] A ++ '/' :: joinWith ['/'] B) := by
    show ['/'] ++ joinWith (str "/") A ++ ['/'] ++ joinWith (str "/") B = _
    simp only [List.append_assoc, List.singleton_append, List.cons_append,
      List.nil_append]
    rfl
  rw [hform]
  unfold pathParts
  rw [splitCh_sep, splitCh_join_sep '/' A hA (fun l hl => (hAel l hl).2)]
  cases hBe : B with
  | nil =>
    show List.filter _ ([] :: (A ++ splitCh '/' [])) = A ++ []
    rw [show splitCh '/' ([] : Str) = [[]] from rfl]
    rw [List.filter_cons, List.filter_append]
    simp only [decide_not, ne_eq, not_true_eq_false, decide_False, Bool.not_false]
    rw [List.filter_eq_self.mpr (fun x hx => by simpa using (hAel x hx).1)]
    simp
  | cons b bs =>
    show List.filter _ ([] :: (A ++ splitCh '/' (joinWith ['/'] (b :: bs)))) = _
    rw [splitCh_joinWith '/' (b :: bs) (by simp)
      (fun l hl => (hBel l (hBe ▸ hl)).2)]
    rw [List.filter_cons, List.filter_append]
    simp only [decide_not, ne_eq, not_true_eq_false, decide_False, Bool.not_false]
    rw [List.filter_eq_self.mpr (fun x hx => by simpa using (hAel x hx).1),
      List.filter_eq_self.mpr (fun x hx => by simpa using (hBel x (hBe ▸ hx)).1)]
    simp

theorem dropLast_cons_ne {α : Type} (a : α) {l : List α} (h : l ≠ []) :
    (a :: l).dropLast = a :: l.dropLast := by
  cases l with
  | nil => exact absurd rfl h
  | cons b t => rfl

theorem getLast?_cons_ne {α : Type} (a : α) {l : List α} (h : l ≠ []) :
    (a :: l).getLast? = l.getLast? := by
  cases l with
  | nil => exact absurd rfl h
  | cons b t => exact List.getLast?_cons_cons

theorem splitCh_append_of_getLast (c : Char) : ∀ (x : Str), x.getLast? = some c →
    ∀ y, splitCh c (x ++ y) = (splitCh c x).dropLast ++ splitCh c y ∧
      (splitCh c x).getLast? = some [] := by
  intro x
  induction x with
  | nil => intro h; exact absurd h (by simp)
  | cons a x2 ih =>
    intro hl y
    cases x2 with
    | nil =>
      have hac : a = c := by simpa using hl
      subst hac
      have hsp : splitCh a [a] = [[], []] := by simp [splitCh]
      refine ⟨?_, ?_⟩
      · show splitCh a (a :: y) = (splitCh a [a]).dropLast ++ splitCh a y
        rw [splitCh_sep, hsp]
        rfl
      · rw [hsp]
        rfl
    | cons b x3 =>
      have hlx2 : (b :: x3).getLast? = some c := by
        rw [List.getLast?_cons_cons] at hl
        exact hl
      obtain ⟨ih1, ih2⟩ := ih hlx2 y
      by_cases hac : a = c
      · subst hac
        refine ⟨?_, ?_⟩
        · show splitCh a ((a :: (b :: x3)) ++ y) = _
          rw [List.cons_append, splitCh_sep, ih1, splitCh_sep,
            dropLast_cons_ne ([] : Str) (splitCh_ne_nil a (b :: x3))]
          rfl
        · rw [splitCh_sep, getLast?_cons_ne ([] : Str) (splitCh_ne_nil a (b :: x3))]
          exact ih2
      · cases hs : splitCh c (b :: x3) with
        | nil => exact absurd hs (splitCh_ne_nil c (b :: x3))
        | cons s0 sr =>
          cases sr with
          | nil =>
            exfalso
            have hs0 : s0 = [] := by
              rw [hs] at ih2
              simpa using ih2
            by_cases hbc : b = c
            · subst hbc
              rw [splitCh_sep] at hs
              have := splitCh_ne_nil b x3
              rw [show splitCh b x3 = [] from by injection hs] at this
              exact this rfl
            · rw [splitCh_nsep x3 hbc] at hs
              have : b :: (splitCh c x3).headD [] = s0 := by injection hs
              rw [hs0] at this
              exact List.noConfusion this
          | cons s1 sr2 =>
            refine ⟨?_, ?_⟩
            · show splitCh c ((a :: (b :: x3)) ++ y) = _
              rw [List.cons_append, splitCh_nsep _ hac, ih1, hs,
                splitCh_nsep _ hac, hs]
              rw [dropLast_cons_ne s0 (by simp)]
              simp only [List.cons_append, List.headD, List.tail]
              rw [dropLast_cons_ne (a :: s0) (by simp)]
              rfl
            · rw [splitCh_nsep _ hac, hs]
              simp only [List.headD, List.tail]
              rw [List.getLast?_cons_cons]
              rw [hs] at ih2
              rw [← List.getLast?_cons_cons (a := s0)]
              exact ih2

theorem pathParts_append_slash (x t : Str) (hx : x.getLast? = some '/') :
    pathParts (x ++ t) = pathParts x ++ pathParts t := by
  obtain ⟨h1, h2⟩ := splitCh_append_of_getLast '/' x hx t
  unfold pathParts
  rw [h1, List.filter_append]
  congr 1
  have hdl : splitCh '/' x = (splitCh '/' x).dropLast ++ [([] : Str)] :=
    (List.dropLast_append_getLast? [] (Option.mem_def.mpr h2)).symm
  conv_rhs => rw [hdl]
  rw [List.filter_append]
  simp

theorem mem_of_mem_splitCh_elem {c : Char} : ∀ {s l : Str}, l ∈ splitCh c s →
    ∀ {x : Char}, x ∈ l → x ∈ s := by
  intro s
  induction s with
  | nil =>
    intro l hl x hx
    simp [splitCh] at hl
    rw [hl] at hx
    simp at hx
  | cons a s ih =>
    intro l hl x hx
    by_cases hac : a = c
    · subst hac
      rw [splitCh_sep, List.mem_cons] at hl
      rcases hl with rfl | hl
      · simp at hx
      · exact List.mem_cons_of_mem a (ih hl hx)
    · rw [splitCh_nsep _ hac, List.mem_cons] at hl
      rcases hl with rfl | hl
      · rw [List.mem_cons] at hx
        rcases hx with rfl | hx
        · exact List.mem_cons_self x s
        · exact List.mem_cons_of_mem a
            (ih (headD_mem [] (splitCh_ne_nil c s)) hx)
      · exact List.mem_cons_of_mem a (ih (List.mem_of_mem_tail hl) hx)

theorem mem_joinWith {c : Char} : ∀ {A : List Str} {x : Char},
    x ∈ joinWith [c] A → x = c ∨ ∃ l ∈ A, x ∈ l := by
  intro A
  induction A with
  | nil => intro x hx; simp [joinWith] at hx
  | cons l ls ih =>
    intro x hx
    cases ls with
    | nil =>
      right
      exact ⟨l, List.mem_cons_self l [], hx⟩
    | cons l2 ls2 =>
      rw [show joinWith [c] (l :: l2 :: ls2) = l ++ [c] ++ joinWith [c] (l2 :: ls2)
        from rfl, List.append_assoc, List.mem_append] at hx
      rcases hx with hx | hx
      · exact Or.inr ⟨l, List.mem_cons_self l _, hx⟩
      · rw [List.singleton_append, List.mem_cons] at hx
        rcases hx with rfl | hx
        · exact Or.inl rfl
        · rcases ih hx with h | ⟨m, hm, hxm⟩
          · exact Or.inl h
          · exact Or.inr ⟨m, List.mem_cons_of_mem l hm, hxm⟩

/-! ## C6: determinism and idempotence of the URL normalizer -/

/-- Unparsing a parsed absolute `http(s)` URL back to its string. -/
theorem toStringU_abs (pp pfull th np qy : Str)
    (hcase : (pfull = str "http://" ∧ pp = str "http:") ∨
      (pfull = str "https://" ∧ pp = str "https:")) :
    toStringU
      { protocol := pp
        slashes := true
        host := th
        pathname := np
        query := qy
        hash := [] } = pfull ++ (th ++ (np ++ qy)) := by
  rcases hcase with ⟨hf, hp⟩ | ⟨hf, hp⟩ <;> subst hf <;> subst hp <;>
    simp [toStringU, List.append_assoc] <;> rw [← List.append_assoc] <;> rfl

theorem reparse_roundtrip (t pfull pp np : Str)
    (hcase : (pfull = str "http://" ∧ pp = str "http:") ∨
      (pfull = str "https://" ∧ pp = str "https:"))
    (hht : '#' ∉ t)
    (hnph : ∃ r, np = '/' :: r)
    (hnpc : ∀ x ∈ np, x ≠ '#' ∧ x ≠ '?') :
    urlParse (pfull ++
        ((t.takeWhile (fun c => c ≠ '?')).takeWhile (fun c => c ≠ '/') ++
          (np ++ t.dropWhile (fun c => c ≠ '?')))) =
      { protocol := pp
        slashes := true
        host := (t.takeWhile (fun c => c ≠ '?')).takeWhile (fun c => c ≠ '/')
        pathname := np
        query := t.dropWhile (fun c => c ≠ '?')
        hash := [] } := by
  have hthq : ∀ x ∈ (t.takeWhile (fun c => decide (c ≠ '?'))).takeWhile
      (fun c => decide (c ≠ '/')), (fun c => decide (c ≠ '?')) x = true := by
    intro x hx
    have h5 : x ∈ t.takeWhile (fun c => decide (c ≠ '?')) :=
      (List.takeWhile_sublist _).mem hx
    have h6 := List.mem_takeWhile_imp h5
    exact h6
  have hthsl : ∀ x ∈ (t.takeWhile (fun c => decide (c ≠ '?'))).takeWhile
      (fun c => decide (c ≠ '/')), (fun c => decide (c ≠ '/')) x = true := by
    intro x hx
    have h6 := List.mem_takeWhile_imp hx
    exact h6
  have hthm : ∀ x ∈ (t.takeWhile (fun c => decide (c ≠ '?'))).takeWhile
      (fun c => decide (c ≠ '/')), x ∈ t :=
    fun x hx => (List.takeWhile_sublist _).mem ((List.takeWhile_sublist _).mem hx)
  have hqym : ∀ x ∈ t.dropWhile (fun c => decide (c ≠ '?')), x ∈ t :=
    fun x hx => (List.dropWhile_sublist _).mem hx
  have hnpq : ∀ x ∈ np, (fun c => decide (c ≠ '?')) x = true :=
    fun x hx => decide_eq_true (hnpc x hx).2
  have hw : '#' ∉ pfull ++
      ((t.takeWhile (fun c => decide (c ≠ '?'))).takeWhile (fun c => decide (c ≠ '/')) ++
        (np ++ t.dropWhile (fun c => decide (c ≠ '?')))) := by
    intro hmem
    rcases List.mem_append.1 hmem with h | h
    · rcases hcase with ⟨hf, _⟩ | ⟨hf, _⟩ <;> subst hf <;> revert h <;> decide
    · rcases List.mem_append.1 h with h | h
      · exact hht (hthm _ h)
      · rcases List.mem_append.1 h with h | h
        · exact (hnpc _ h).1 rfl
        · exact hht (hqym _ h)
  rw [urlParse_abs _ pfull pp hcase hw]
  have hqs := dropWhile_shape (fun c => decide (c ≠ '?')) t
  have h1 : ((t.takeWhile (fun c => decide (c ≠ '?'))).takeWhile (fun c => decide (c ≠ '/')) ++
      (np ++ t.dropWhile (fun c => decide (c ≠ '?')))).takeWhile (fun c => decide (c ≠ '?')) =
      (t.takeWhile (fun c => decide (c ≠ '?'))).takeWhile (fun c => decide (c ≠ '/')) ++ np := by
    rw [takeWhile_append_all hthq, takeWhile_append_all hnpq]
    rcases hqs with hq | ⟨a, r, hq, ha⟩
    · rw [hq]; simp
    · rw [hq, List.takeWhile_cons, ha]; simp
  have h2 : ((t.takeWhile (fun c => decide (c ≠ '?'))).takeWhile (fun c => decide (c ≠ '/')) ++
      (np ++ t.dropWhile (fun c => decide (c ≠ '?')))).dropWhile (fun c => decide (c ≠ '?')) =
      t.dropWhile (fun c => decide (c ≠ '?')) := by
    rw [dropWhile_append_all hthq, dropWhile_append_all hnpq]
    rcases hqs with hq | ⟨a, r, hq, ha⟩
    · rw [hq]; simp
    · rw [hq, List.dropWhile_cons, ha]; simp
  rw [h1, h2]
  obtain ⟨r, hr⟩ := hnph
  have h3 : ((t.takeWhile (fun c => decide (c ≠ '?'))).takeWhile (fun c => decide (c ≠ '/')) ++
      np).takeWhile (fun c => decide (c ≠ '/')) =
      (t.takeWhile (fun c => decide (c ≠ '?'))).takeWhile (fun c => decide (c ≠ '/')) := by
    rw [takeWhile_append_all hthsl, hr, List.takeWhile_cons]
    simp
  have h4 : ((t.takeWhile (fun c => decide (c ≠ '?'))).takeWhile (fun c => decide (c ≠ '/')) ++
      np).dropWhile (fun c => decide (c ≠ '/')) = np := by
    rw [dropWhile_append_all hthsl, hr, List.dropWhile_cons]
    simp
  rw [h3, h4]

theorem normalize_offsite (res : Resolver) (ctx : Ctx) (url : Str)
    (habs : (startsWithL (str "http://") (stripFragment url) ||
      startsWithL (str "https://") (stripFragment url)) = true)
    (hD : (urlParse (stripFragment url)).host ≠ ctx.baseDomain ∨
      (pathParts (urlParse (stripFragment url)).pathname).head? ≠
        (pathParts ctx.basePath).head?) :
    normalizeUrl res ctx url = stripFragment url := by
  unfold normalizeUrl
  rcases hD with hD | hD
  · simp [habs, hD]
  · by_cases hh : (urlParse (stripFragment url)).host = ctx.baseDomain
    · simp [habs, hh, hD]
    · simp [habs, hh]

theorem normalize_version (res : Resolver) (ctx : Ctx) (url : Str) (v : Str)
    (habs : (startsWithL (str "http://") (stripFragment url) ||
      startsWithL (str "https://") (stripFragment url)) = true)
    (hh : (urlParse (stripFragment url)).host = ctx.baseDomain)
    (hhd : (pathParts (urlParse (stripFragment url)).pathname).head? =
      (pathParts ctx.basePath).head?)
    (hfind : ((pathParts (urlParse (stripFragment url)).pathname).drop 1).find?
      isVersionLike = some v) :
    normalizeUrl res ctx url =
      toStringU { urlParse (stripFragment url) with
        pathname := versionPath (pathParts (urlParse (stripFragment url)).pathname) v } := by
  unfold normalizeUrl
  rw [List.drop_one] at hfind
  simp [habs, hh, hhd, hfind]

theorem normalize_noversion (res : Resolver) (ctx : Ctx) (url : Str)
    (habs : (startsWithL (str "http://") (stripFragment url) ||
      startsWithL (str "https://") (stripFragment url)) = true)
    (hh : (urlParse (stripFragment url)).host = ctx.baseDomain)
    (hhd : (pathParts (urlParse (stripFragment url)).pathname).head? =
      (pathParts ctx.basePath).head?)
    (hfind : ((pathParts (urlParse (stripFragment url)).pathname).drop 1).find?
      isVersionLike = none) :
    normalizeUrl res ctx url =
      toStringU { urlParse (stripFragment url) with
        pathname := ctx.basePath ++
          joinWith (str "/") ((pathParts (urlParse (stripFragment url)).pathname).drop 1) } := by
  unfold normalizeUrl
  rw [List.drop_one] at hfind
  simp [habs, hh, hhd, hfind]

theorem idem_offsite (res : Resolver) (ctx : Ctx) (url : Str)
    (habs : (startsWithL (str "http://") (stripFragment url) ||
      startsWithL (str "https://") (stripFragment url)) = true)
    (hD : (urlParse (stripFragment url)).host ≠ ctx.baseDomain ∨
      (pathParts (urlParse (stripFragment url)).pathname).head? ≠
        (pathParts ctx.basePath).head?) :
    normalizeUrl res ctx (normalizeUrl res ctx url) = normalizeUrl res ctx url := by
  rw [normalize_offsite res ctx url habs hD, normalizeUrl_strip]
  exact normalize_offsite res ctx url habs hD

theorem chars_of_pathParts {p l : Str} (hl : l ∈ pathParts p) {x : Char} (hx : x ∈ l) :
    x ∈ p := by
  unfold pathParts at hl
  rw [List.mem_filter] at hl
  exact mem_of_mem_splitCh_elem hl.1 hx

theorem versionPath_cons (parts : List Str) (v : Str) :
    ∃ r, versionPath parts v = '/' :: r := ⟨_, rfl⟩

theorem abs_decompose {url : Str}
    (habs : (startsWithL (str "http://") (stripFragment url) ||
      startsWithL (str "https://") (stripFragment url)) = true) :
    ∃ pfull pp, ((pfull = str "http://" ∧ pp = str "http:") ∨
      (pfull = str "https://" ∧ pp = str "https:")) ∧
      ∃ t, stripFragment url = pfull ++ t := by
  rw [Bool.or_eq_true] at habs
  rcases habs with h | h
  · exact ⟨_, _, Or.inl ⟨rfl, rfl⟩, startsWithL_iff_append.1 h⟩
  · exact ⟨_, _, Or.inr ⟨rfl, rfl⟩, startsWithL_iff_append.1 h⟩

theorem idem_version (res : Resolver) (ctx : Ctx) (url v : Str)
    (habs : (startsWithL (str "http://") (stripFragment url) ||
      startsWithL (str "https://") (stripFragment url)) = true)
    (hh : (urlParse (stripFragment url)).host = ctx.baseDomain)
    (hhd : (pathParts (urlParse (stripFragment url)).pathname).head? =
      (pathParts ctx.basePath).head?)
    (hfind : ((pathParts (urlParse (stripFragment url)).pathname).drop 1).find?
      isVersionLike = some v) :
    normalizeUrl res ctx (normalizeUrl res ctx url) = normalizeUrl res ctx url := by
  obtain ⟨pfull, pp, hcase, t, hst⟩ := abs_decompose habs
  have hht : '#' ∉ t := fun hmem =>
    not_hash_stripFragment url (hst ▸ List.mem_append.2 (Or.inr hmem))
  have hhw : '#' ∉ pfull ++ t := hst ▸ not_hash_stripFragment url
  set th := (t.takeWhile (fun c => decide (c ≠ '?'))).takeWhile (fun c => decide (c ≠ '/'))
    with hdef1
  set tp := (t.takeWhile (fun c => decide (c ≠ '?'))).dropWhile (fun c => decide (c ≠ '/'))
    with hdef2
  set qy := t.dropWhile (fun c => decide (c ≠ '?')) with hdef3
  have hP : urlParse (stripFragment url) =
      { protocol := pp
        slashes := true
        host := th
        pathname := tp
        query := qy
        hash := [] } := by
    rw [hst]
    exact urlParse_abs t pfull pp hcase hhw
  have hpn : (urlParse (stripFragment url)).pathname = tp := by rw [hP]
  have hth_base : th = ctx.baseDomain := by rw [← hh, hP]
  have hfind2 : ((pathParts tp).drop 1).find? isVersionLike = some v := by
    rw [← hpn]; exact hfind
  have hhd2 : (pathParts tp).head? = (pathParts ctx.basePath).head? := by
    rw [← hpn]; exact hhd
  set parts := pathParts tp with hdefP
  have hparts_el : ∀ l ∈ parts, l ≠ [] ∧ '/' ∉ l := pathParts_elems tp
  have htpT : ∀ x ∈ tp, x ∈ t.takeWhile (fun c => decide (c ≠ '?')) := by
    intro x hx
    rw [hdef2] at hx
    exact (List.dropWhile_sublist _).mem hx
  have htpQ : ∀ x ∈ tp, x ≠ '?' := by
    intro x hx
    have h6 := List.mem_takeWhile_imp (htpT x hx)
    simpa using h6
  have htpH : ∀ x ∈ tp, x ≠ '#' := fun x hx e =>
    hht (e ▸ (List.takeWhile_sublist _).mem (htpT x hx))
  set newP := versionPath parts v with hdefN
  have hnph : ∃ r, newP = '/' :: r := versionPath_cons parts v
  have hnpc : ∀ x ∈ newP, x ≠ '#' ∧ x ≠ '?' := by
    intro x hx
    rw [hdefN] at hx
    simp only [versionPath] at hx
    rw [show str "/" = ['/'] from rfl] at hx
    rcases List.mem_append.1 hx with hx | hxB
    · rcases List.mem_append.1 hx with hx | hxS2
      · rcases List.mem_append.1 hx with hxS1 | hxA
        · rw [List.mem_singleton] at hxS1
          subst hxS1
          exact ⟨by decide, by decide⟩
        · rcases mem_joinWith hxA with rfl | ⟨l, hl, hxl⟩
          · exact ⟨by decide, by decide⟩
          · have hlp : l ∈ parts := List.mem_of_mem_take hl
            have hxtp : x ∈ tp := chars_of_pathParts hlp hxl
            exact ⟨htpH x hxtp, htpQ x hxtp⟩
      · rw [List.mem_singleton] at hxS2
        subst hxS2
        exact ⟨by decide, by decide⟩
    · rcases mem_joinWith hxB with rfl | ⟨l, hl, hxl⟩
      · exact ⟨by decide, by decide⟩
      · have hlp : l ∈ parts := List.mem_of_mem_drop hl
        have hxtp : x ∈ tp := chars_of_pathParts hlp hxl
        exact ⟨htpH x hxtp, htpQ x hxtp⟩
  have hy : normalizeUrl res ctx url = pfull ++ (th ++ (newP ++ qy)) := by
    rw [normalize_version res ctx url v habs hh hhd hfind, hP]
    exact toStringU_abs pp pfull th newP qy hcase
  have hyh : '#' ∉ normalizeUrl res ctx url := by
    rw [hy]
    intro hmem
    rcases List.mem_append.1 hmem with h | h
    · rcases hcase with ⟨hf, _⟩ | ⟨hf, _⟩ <;> subst hf <;> revert h <;> decide
    · rcases List.mem_append.1 h with h | h
      · rw [hdef1] at h
        exact hht ((List.takeWhile_sublist _).mem ((List.takeWhile_sublist _).mem h))
      · rcases List.mem_append.1 h with h | h
        · exact (hnpc _ h).1 rfl
        · rw [hdef3] at h
          exact hht ((List.dropWhile_sublist _).mem h)
  have hstr : stripFragment (normalizeUrl res ctx url) = normalizeUrl res ctx url :=
    stripFragment_eq_self hyh
  have hsw : startsWithL pfull (normalizeUrl res ctx url) = true := by
    rw [hy]
    exact startsWithL_append pfull _
  have habs2 : (startsWithL (str "http://") (stripFragment (normalizeUrl res ctx url)) ||
      startsWithL (str "https://") (stripFragment (normalizeUrl res ctx url))) = true := by
    rw [hstr, Bool.or_eq_true]
    rcases hcase with ⟨hf, _⟩ | ⟨hf, _⟩ <;> subst hf
    · exact Or.inl hsw
    · exact Or.inr hsw
  have hP2 : urlParse (stripFragment (normalizeUrl res ctx url)) =
      { protocol := pp
        slashes := true
        host := th
        pathname := newP
        query := qy
        hash := [] } := by
    rw [hstr, hy]
    exact reparse_roundtrip t pfull pp newP hcase hht hnph hnpc
  have hpn2 : (urlParse (stripFragment (normalizeUrl res ctx url))).pathname = newP := by
    rw [hP2]
  have hh2 : (urlParse (stripFragment (normalizeUrl res ctx url))).host = ctx.baseDomain := by
    rw [hP2]
    exact hth_base
  have hppN : pathParts newP = parts := by
    rw [hdefN]
    simp only [versionPath]
    have htk : parts.take (parts.indexOf v + 1) ≠ [] := by
      intro he
      rcases List.take_eq_nil_iff.1 he with h | h
      · exact Nat.succ_ne_zero _ h
      · rw [h] at hfind2
        simp at hfind2
    rw [pathParts_mk (parts.take (parts.indexOf v + 1)) (parts.drop (parts.indexOf v + 1))
      htk (fun l hl => hparts_el l (List.mem_of_mem_take hl))
      (fun l hl => hparts_el l (List.mem_of_mem_drop hl))]
    exact List.take_append_drop _ _
  have hhd3 : (pathParts (urlParse (stripFragment (normalizeUrl res ctx url))).pathname).head? =
      (pathParts ctx.basePath).head? := by
    rw [hpn2, hppN]
    exact hhd2
  have hfind3 : ((pathParts
      (urlParse (stripFragment (normalizeUrl res ctx url))).pathname).drop 1).find?
      isVersionLike = some v := by
    rw [hpn2, hppN]
    exact hfind2
  have hfy := normalize_version res ctx (normalizeUrl res ctx url) v habs2 hh2 hhd3 hfind3
  have hrw1 : pathParts (urlParse (stripFragment (normalizeUrl res ctx url))).pathname =
      parts := by
    rw [hpn2, hppN]
  rw [hrw1] at hfy
  rw [← hdefN] at hfy
  rw [hP2] at hfy
  have hfy2 : normalizeUrl res ctx (normalizeUrl res ctx url) =
      pfull ++ (th ++ (newP ++ qy)) := by
    rw [hfy]
    exact toStringU_abs pp pfull th newP qy hcase
  rw [hfy2, hy]

theorem idem_noversion (res : Resolver) (ctx : Ctx) (url : Str)
    (hwf : wellFormedPath ctx.basePath)
    (hbp : (pathParts ctx.basePath).length ≤ 1)
    (habs : (startsWithL (str "http://") (stripFragment url) ||
      startsWithL (str "https://") (stripFragment url)) = true)
    (hh : (urlParse (stripFragment url)).host = ctx.baseDomain)
    (hhd : (pathParts (urlParse (stripFragment url)).pathname).head? =
      (pathParts ctx.basePath).head?)
    (hfind : ((pathParts (urlParse (stripFragment url)).pathname).drop 1).find?
      isVersionLike = none) :
    normalizeUrl res ctx (normalizeUrl res ctx url) = normalizeUrl res ctx url := by
  obtain ⟨hwf1, hwf2, hwf3, hwf4⟩ := hwf
  obtain ⟨pfull, pp, hcase, t, hst⟩ := abs_decompose habs
  have hht : '#' ∉ t := fun hmem =>
    not_hash_stripFragment url (hst ▸ List.mem_append.2 (Or.inr hmem))
  have hhw : '#' ∉ pfull ++ t := hst ▸ not_hash_stripFragment url
  set th := (t.takeWhile (fun c => decide (c ≠ '?'))).takeWhile (fun c => decide (c ≠ '/'))
    with hdef1
  set tp := (t.takeWhile (fun c => decide (c ≠ '?'))).dropWhile (fun c => decide (c ≠ '/'))
    with hdef2
  set qy := t.dropWhile (fun c => decide (c ≠ '?')) with hdef3
  have hP : urlParse (stripFragment url) =
      { protocol := pp
        slashes := true
        host := th
        pathname := tp
        query := qy
        hash := [] } := by
    rw [hst]
    exact urlParse_abs t pfull pp hcase hhw
  have hpn : (urlParse (stripFragment url)).pathname = tp := by rw [hP]
  have hth_base : th = ctx.baseDomain := by rw [← hh, hP]
  have hfind2 : ((pathParts tp).drop 1).find? isVersionLike = none := by
    rw [← hpn]; exact hfind
  have hhd2 : (pathParts tp).head? = (pathParts ctx.basePath).head? := by
    rw [← hpn]; exact hhd
  set parts := pathParts tp with hdefP
  have hparts_el : ∀ l ∈ parts, l ≠ [] ∧ '/' ∉ l := pathParts_elems tp
  have htpT : ∀ x ∈ tp, x ∈ t.takeWhile (fun c => decide (c ≠ '?')) := by
    intro x hx
    rw [hdef2] at hx
    exact (List.dropWhile_sublist _).mem hx
  have htpQ : ∀ x ∈ tp, x ≠ '?' := by
    intro x hx
    have h6 := List.mem_takeWhile_imp (htpT x hx)
    simpa using h6
  have htpH : ∀ x ∈ tp, x ≠ '#' := fun x hx e =>
    hht (e ▸ (List.takeWhile_sublist _).mem (htpT x hx))
  set newP := ctx.basePath ++ joinWith (str "/") (parts.drop 1) with hdefN
  have hnph : ∃ r, newP = '/' :: r := by
    rw [hdefN]
    cases hbc : ctx.basePath with
    | nil => rw [hbc] at hwf1; exact absurd hwf1 (by simp)
    | cons a b =>
      rw [hbc] at hwf1
      simp only [List.head?_cons, Option.some.injEq] at hwf1
      subst hwf1
      exact ⟨_, rfl⟩
  have hnpc : ∀ x ∈ newP, x ≠ '#' ∧ x ≠ '?' := by
    intro x hx
    rw [hdefN] at hx
    rcases List.mem_append.1 hx with hx | hx
    · exact ⟨fun e => hwf4 (e ▸ hx), fun e => hwf3 (e ▸ hx)⟩
    · rw [show str "/" = ['/'] from rfl] at hx
      rcases mem_joinWith hx with rfl | ⟨l, hl, hxl⟩
      · exact ⟨by decide, by decide⟩
      · have hlp : l ∈ parts := List.mem_of_mem_drop hl
        have hxtp : x ∈ tp := chars_of_pathParts hlp hxl
        exact ⟨htpH x hxtp, htpQ x hxtp⟩
  have hy : normalizeUrl res ctx url = pfull ++ (th ++ (newP ++ qy)) := by
    rw [normalize_noversion res ctx url habs hh hhd hfind, hP]
    exact toStringU_abs pp pfull th newP qy hcase
  have hyh : '#' ∉ normalizeUrl res ctx url := by
    rw [hy]
    intro hmem
    rcases List.mem_append.1 hmem with h | h
    · rcases hcase with ⟨hf, _⟩ | ⟨hf, _⟩ <;> subst hf <;> revert h <;> decide
    · rcases List.mem_append.1 h with h | h
      · rw [hdef1] at h
        exact hht ((List.takeWhile_sublist _).mem ((List.takeWhile_sublist _).mem h))
      · rcases List.mem_append.1 h with h | h
        · exact (hnpc _ h).1 rfl
        · rw [hdef3] at h
          exact hht ((List.dropWhile_sublist _).mem h)
  have hstr : stripFragment (normalizeUrl res ctx url) = normalizeUrl res ctx url :=
    stripFragment_eq_self hyh
  have hsw : startsWithL pfull (normalizeUrl res ctx url) = true := by
    rw [hy]
    exact startsWithL_append pfull _
  have habs2 : (startsWithL (str "http://") (stripFragment (normalizeUrl res ctx url)) ||
      startsWithL (str "https://") (stripFragment (normalizeUrl res ctx url))) = true := by
    rw [hstr, Bool.or_eq_true]
    rcases hcase with ⟨hf, _⟩ | ⟨hf, _⟩ <;> subst hf
    · exact Or.inl hsw
    · exact Or.inr hsw
  have hP2 : urlParse (stripFragment (normalizeUrl res ctx url)) =
      { protocol := pp
        slashes := true
        host := th
        pathname := newP
        query := qy
        hash := [] } := by
    rw [hstr, hy]
    exact reparse_roundtrip t pfull pp newP hcase hht hnph hnpc
  have hpn2 : (urlParse (stripFragment (normalizeUrl res ctx url))).pathname = newP := by
    rw [hP2]
  have hh2 : (urlParse (stripFragment (normalizeUrl res ctx url))).host = ctx.baseDomain := by
    rw [hP2]
    exact hth_base
  have hppN : pathParts newP = parts := by
    rw [hdefN, pathParts_append_slash ctx.basePath _ hwf2,
      pathParts_join (parts.drop 1) (fun l hl => hparts_el l (List.mem_of_mem_drop hl))]
    rcases hbl : pathParts ctx.basePath with _ | ⟨p0, rest⟩
    · rw [hbl] at hhd2
      simp only [List.head?_nil] at hhd2
      rw [List.head?_eq_none_iff] at hhd2
      rw [hhd2]
      simp
    · have hrest : rest = [] := by
        rw [hbl] at hbp
        simp at hbp
        exact hbp
      subst hrest
      rw [hbl] at hhd2
      simp only [List.head?_cons] at hhd2
      cases hpc : parts with
      | nil => rw [hpc] at hhd2; exact absurd hhd2 (by simp)
      | cons a r =>
        rw [hpc] at hhd2
        simp only [List.head?_cons, Option.some.injEq] at hhd2
        subst hhd2
        simp
  have hhd3 : (pathParts (urlParse (stripFragment (normalizeUrl res ctx url))).pathname).head? =
      (pathParts ctx.basePath).head? := by
    rw [hpn2, hppN]
    exact hhd2
  have hfind3 : ((pathParts
      (urlParse (stripFragment (normalizeUrl res ctx url))).pathname).drop 1).find?
      isVersionLike = none := by
    rw [hpn2, hppN]
    exact hfind2
  have hfy := normalize_noversion res ctx (normalizeUrl res ctx url) habs2 hh2 hhd3 hfind3
  have hrw1 : pathParts (urlParse (stripFragment (normalizeUrl res ctx url))).pathname =
      parts := by
    rw [hpn2, hppN]
  rw [hrw1] at hfy
  rw [← hdefN] at hfy
  rw [hP2] at hfy
  have hfy2 : normalizeUrl res ctx (normalizeUrl res ctx url) =
      pfull ++ (th ++ (newP ++ qy)) := by
    rw [hfy]
    exact toStringU_abs pp pfull th newP qy hcase
  rw [hfy2, hy]

/-- C6 (corrected): the normalizer is deterministic, and it is idempotent on
absolute `http(s)` hrefs in the off-site case (host or leading path segment
differs from the base), in the version-segment case, and in the on-site case
whenever the base path has at most one segment; the spec's unconditional
idempotence claim fails when a multi-segment base path is re-prepended. -/
theorem c6_normalizer_idempotent (res : Resolver) (ctx : Ctx) (url : Str)
    (hwf : wellFormedPath ctx.basePath)
    (habs : (startsWithL (str "http://") (stripFragment url) ||
      startsWithL (str "https://") (stripFragment url)) = true)
    (hcases : (urlParse (stripFragment url)).host ≠ ctx.baseDomain ∨
      (pathParts (urlParse (stripFragment url)).pathname).head? ≠
        (pathParts ctx.basePath).head? ∨
      (∃ v, ((pathParts (urlParse (stripFragment url)).pathname).drop 1).find?
        isVersionLike = some v) ∨
      (pathParts ctx.basePath).length ≤ 1) :
    (∀ u1 u2 : Str, u1 = u2 → normalizeUrl res ctx u1 = normalizeUrl res ctx u2) ∧
    normalizeUrl res ctx (normalizeUrl res ctx url) = normalizeUrl res ctx url := by
  refine ⟨fun u1 u2 h => h ▸ rfl, ?_⟩
  by_cases hh : (urlParse (stripFragment url)).host = ctx.baseDomain
  · by_cases hhd : (pathParts (urlParse (stripFragment url)).pathname).head? =
        (pathParts ctx.basePath).head?
    · cases hfind : ((pathParts (urlParse (stripFragment url)).pathname).drop 1).find?
          isVersionLike with
      | some v => exact idem_version res ctx url v habs hh hhd hfind
      | none =>
        rcases hcases with hD | hD | ⟨v, hv⟩ | hbp
        · exact absurd hh hD
        · exact absurd hhd hD
        · rw [hfind] at hv
          exact absurd hv (by simp)
        · exact idem_noversion res ctx url ⟨hwf.1, hwf.2.1, hwf.2.2.1, hwf.2.2.2⟩ hbp
            habs hh hhd hfind
    · exact idem_offsite res ctx url habs (Or.inr hhd)
  · exact idem_offsite res ctx url habs (Or.inl hh)

/-- C6 counterexample: with base `https://x.test/docs/guide/`, the absolute URL
`https://x.test/docs/a` normalizes to `https://x.test/docs/guide/a`, and
normalizing that output again re-prepends the base context path, so the
normalizer is not idempotent on its own absolute output. -/
theorem c6_counterexample :
    normalizeUrl noRes ctxDocs (normalizeUrl noRes ctxDocs (str "https://x.test/docs/a")) ≠
      normalizeUrl noRes ctxDocs (str "https://x.test/docs/a") := by decide

/-- C6 witness: the amended idempotence theorem applied at a concrete
off-site absolute URL under the seed context. -/
theorem c6_witness :
    normalizeUrl noRes ctxSeed (normalizeUrl noRes ctxSeed (str "https://other.example/p")) =
      normalizeUrl noRes ctxSeed (str "https://other.example/p") :=
  (c6_normalizer_idempotent noRes ctxSeed (str "https://other.example/p")
    ⟨by decide, by decide, by decide, by decide⟩ (by decide) (Or.inl (by decide))).2
